import Mathlib

/-!
Verification development for the incremental constraint-evaluation core of the
fullrmc repository (files `Constraints/AtomicCoordinationConstraints.py` and
`Constraints/ImproperAngleConstraints.py`).

Machine floats (`FLOAT_TYPE`) are embedded as exact rationals `ℚ`, machine
integers (`INT_TYPE`) as `ℕ`/`ℤ`.  numpy arrays become `List`s; the shared
engine coordinate store becomes a `List Vec3`.  Python in-place mutation is
explicit state passing; a Python exception is an `Option Err` flag returned
next to the (possibly partially mutated) state, mirroring the fact that an
escaping exception leaves the object in whatever state it had reached.

The geometry kernels (`fullrmc.Core.atomic_coordination` and
`fullrmc.Core.improper_angles`) and the base `Constraint` classes are not part
of the two source files; where needed they are modelled from the spec and each
such definition carries a doc comment starting with `Modelled from the spec:`.
-/

namespace Fullrmc

/-- Error values corresponding to the Python exceptions raised by the two
constraint classes: failed `assert ...` validations (`AssertionError`), the
`NameError` raised by the `isnstance` misspelling, and an error escaping a
geometry-kernel call. -/
inductive Err where
  | invalidSelector : Err
  | invalidBounds : Err
  | nameError : Err
  | kernelError : Err
  deriving DecidableEq, Repr

/-- A 3D coordinate of one atom, one row of the engine's `boxCoordinates`
array.  Components are exact rationals standing for machine floats. -/
structure Vec3 where
  x : ℚ
  y : ℚ
  z : ℚ
  deriving DecidableEq, Repr

instance : Inhabited Vec3 := ⟨⟨0, 0, 0⟩⟩

/-- numpy fancy-index read `arr[idxs]`: the list of values at the given
positions (out-of-range positions read the default, they cannot occur in
validated states). -/
def listRead [Inhabited α] (l : List α) (idxs : List ℕ) : List α :=
  idxs.map (fun i => l.getD i default)

/-- numpy fancy-index assignment `arr[idxs] = vals`: positions are written in
order, so on duplicate indexes the last value wins, exactly as numpy does. -/
def listWrite (l : List α) (idxs : List ℕ) (vals : List α) : List α :=
  (idxs.zip vals).foldl (fun acc p => acc.set p.1 p.2) l

@[simp] theorem listWrite_nil_idxs (l : List α) (vals : List α) :
    listWrite l [] vals = l := rfl

@[simp] theorem listWrite_nil_vals (l : List α) (idxs : List ℕ) :
    listWrite l idxs [] = l := by
  cases idxs <;> rfl

theorem listWrite_cons (l : List α) (i : ℕ) (idxs : List ℕ) (v : α) (vals : List α) :
    listWrite l (i :: idxs) (v :: vals) = listWrite (l.set i v) idxs vals := rfl

theorem length_listWrite (l : List α) (idxs : List ℕ) (vals : List α) :
    (listWrite l idxs vals).length = l.length := by
  induction idxs generalizing l vals with
  | nil => rfl
  | cons i is ih =>
    cases vals with
    | nil => simp
    | cons v vs => rw [listWrite_cons, ih, List.length_set]

theorem getElem?_listWrite_of_not_mem (l : List α) (idxs : List ℕ) (vals : List α)
    {p : ℕ} (hp : p ∉ idxs) : (listWrite l idxs vals)[p]? = l[p]? := by
  induction idxs generalizing l vals with
  | nil => rfl
  | cons i is ih =>
    cases vals with
    | nil => simp
    | cons v vs =>
      rw [listWrite_cons, ih (l.set i v) vs (fun h => hp (List.mem_cons_of_mem _ h))]
      apply List.getElem?_set_ne
      intro h
      exact hp (h ▸ List.mem_cons_self i is)

/-- Writing back the values read from `l` at `idxs` into any list that has the
same length as `l` and agrees with `l` outside `idxs` restores `l` exactly.
This backs both the coordinate restoration of `compute_after_move` and the
undo of the in-place reduced-angles patch. -/
theorem listWrite_listRead_restore [Inhabited α] (l l2 : List α) (idxs : List ℕ)
    (hlen : l2.length = l.length)
    (hout : ∀ p : ℕ, p ∉ idxs → l2[p]? = l[p]?) :
    listWrite l2 idxs (listRead l idxs) = l := by
  induction idxs generalizing l2 with
  | nil =>
    apply List.ext_getElem?
    intro p
    exact hout p (List.not_mem_nil p)
  | cons i is ih =>
    show listWrite l2 (i :: is) (l.getD i default :: listRead l is) = l
    rw [listWrite_cons]
    apply ih (l2.set i (l.getD i default))
    · rw [List.length_set, hlen]
    · intro p hp
      by_cases hpi : p = i
      · subst hpi
        by_cases hin : p < l2.length
        · rw [List.getElem?_set_self hin, List.getD_eq_getElem?_getD,
            List.getElem?_eq_getElem (hlen ▸ hin)]
          rfl
        · rw [List.getElem?_eq_none (Nat.le_of_not_lt (by simpa [List.length_set] using hin)),
            Eq.comm, List.getElem?_eq_none]
          rw [hlen] at hin
          exact Nat.le_of_not_lt hin
      · rw [List.getElem?_set_ne (fun h => hpi h.symm)]
        exact hout p (by simp [hpi, hp])

/-- Restoration specialised to a fresh trial write: writing `vals` at `idxs`
and then writing back the previously read values is the identity. -/
theorem listWrite_write_restore [Inhabited α] (l : List α) (idxs : List ℕ) (vals : List α) :
    listWrite (listWrite l idxs vals) idxs (listRead l idxs) = l :=
  listWrite_listRead_restore l (listWrite l idxs vals) idxs
    (length_listWrite l idxs vals)
    (fun p hp => getElem?_listWrite_of_not_mem l idxs vals hp)

/-! ## The engine interface consumed by both constraints

Only the attributes the two source files read are modelled: the frozen atom
count, the per-atom element and name tables and the sets of existing elements
and names.  The mutable `boxCoordinates` store is passed around explicitly as
a `List Vec3`. -/

structure Engine where
  numberOfAtoms : ℕ
  allElements : List String
  allNames : List String
  elements : List String
  names : List String
  deriving DecidableEq, Repr

/-- Python `sorted(set(x))`: deduplicate keeping first occurrences, then sort
ascending. -/
def sortedDedup (l : List ℕ) : List ℕ :=
  List.insertionSort (· ≤ ·) l.dedup

theorem mem_sortedDedup {a : ℕ} {l : List ℕ} : a ∈ sortedDedup l ↔ a ∈ l := by
  unfold sortedDedup
  rw [(List.perm_insertionSort (· ≤ ·) l.dedup).mem_iff]
  exact List.mem_dedup

/-! ## AtomicCoordinationNumberConstraint: definition compilation -/

namespace ACNC

/-- One selector of a coordination-number definition: an element symbol
string, an attribute dictionary `{key: value}`, or an explicit index
collection. -/
inductive SelDef where
  | element (s : String)
  | attr (key value : String)
  | idxs (l : List ℤ)
  deriving DecidableEq, Repr

/-- One raw item of `coordNumDef`: the 6 mandatory fields and the optional
7th weight. -/
structure RawCNDef where
  core : SelDef
  shell : SelDef
  lowerShell : ℚ
  upperShell : ℚ
  minCN : ℚ
  maxCN : ℚ
  weight : Option ℚ
  deriving DecidableEq, Repr

/-- Python `[idx for idx, el in enumerate(l) if el == s]`. -/
def enumFilterEq (l : List String) (s : String) : List ℕ :=
  (l.enum.filter (fun p => p.2 = s)).map (fun p => p.1)

/-- Selector resolution block of `set_coordination_number_definition`.  The
element-string branch validates against `engine.elements` and collects the
matching positions of `engine.allElements`.  The dictionary and explicit-index
branches are guarded in the source by the misspelled name `isnstance`, so
reaching them raises `NameError` before any selector validation runs; they are
modelled as returning `Err.nameError`. -/
def resolveSelector (eng : Engine) (sel : SelDef) : Except Err (List ℕ) :=
  match sel with
  | .element s =>
      if s ∈ eng.elements then .ok (enumFilterEq eng.allElements s)
      else .error .invalidSelector
  | .attr _ _ => .error .nameError
  | .idxs _ => .error .nameError

/-- The per-definition values appended by one loop iteration of
`set_coordination_number_definition` after all its validations passed. -/
structure ParsedCN where
  coreIndexes : List ℕ
  shellIndexes : List ℕ
  lowerShell : ℚ
  upperShell : ℚ
  minCN : ℚ
  maxCN : ℚ
  weight : ℚ
  deriving DecidableEq, Repr

/-- Validation of one raw definition item: resolve both selectors, then check
`lowerShell >= 0`, `upperShell > lowerShell`, `minCN >= 0`, `maxCN >= minCN`
and `weight > 0` in source order; an absent weight defaults to `1.0`. -/
def parseCNDef (eng : Engine) (d : RawCNDef) : Except Err ParsedCN :=
  match resolveSelector eng d.core with
  | .error e => .error e
  | .ok coreIndexes =>
    match resolveSelector eng d.shell with
    | .error e => .error e
    | .ok shellIndexes =>
      if ¬ (0 ≤ d.lowerShell) then .error .invalidBounds
      else if ¬ (d.lowerShell < d.upperShell) then .error .invalidBounds
      else if ¬ (0 ≤ d.minCN) then .error .invalidBounds
      else if ¬ (d.minCN ≤ d.maxCN) then .error .invalidBounds
      else
        let w := d.weight.getD 1
        if ¬ (0 < w) then .error .invalidBounds
        else .ok ⟨sortedDedup coreIndexes, sortedDedup shellIndexes,
                  d.lowerShell, d.upperShell, d.minCN, d.maxCN, w⟩

/-- The per-frame attributes of `AtomicCoordinationNumberConstraint`: the
stored raw definition and the parallel compiled arrays. -/
structure State where
  coordNumDef : Option (List RawCNDef)
  coresIndexes : List (List ℕ)
  numberOfCores : List ℚ
  shellsIndexes : List (List ℕ)
  lowerShells : List ℚ
  upperShells : List ℚ
  minAtoms : List ℚ
  maxAtoms : List ℚ
  coordNumData : List ℚ
  weights : List ℚ
  asCoreDefIdxs : List (List ℕ)
  inShellDefIdxs : List (List ℕ)
  deriving DecidableEq, Repr

/-- `__initialize_constraint_data`: reset every compiled attribute to its
empty value (the raw definition is also reset to `None`). -/
def initialize_constraint_data : State :=
  ⟨none, [], [], [], [], [], [], [], [], [], [], []⟩

/-- One append group at the end of a successful loop iteration of
`set_coordination_number_definition` (`sorted(set(...))` already applied by
`parseCNDef`). -/
def appendParsed (st : State) (p : ParsedCN) : State :=
  { st with coresIndexes := st.coresIndexes ++ [p.coreIndexes],
            shellsIndexes := st.shellsIndexes ++ [p.shellIndexes],
            lowerShells := st.lowerShells ++ [p.lowerShell],
            upperShells := st.upperShells ++ [p.upperShell],
            minAtoms := st.minAtoms ++ [p.minCN],
            maxAtoms := st.maxAtoms ++ [p.maxCN],
            coordNumData := st.coordNumData ++ [0],
            weights := st.weights ++ [p.weight] }

/-- The validation loop over the raw definition items.  A failed validation
raises out of the loop, leaving behind whatever had been appended so far. -/
def parseLoop (eng : Engine) (st : State) (defs : List RawCNDef) : State × Option Err :=
  match defs with
  | [] => (st, none)
  | d :: rest =>
      match parseCNDef eng d with
      | .error e => (st, some e)
      | .ok p => parseLoop eng (appendParsed st p) rest

/-- Append the definition index `d` to atom `a`'s membership row
(`self.__asCoreDefIdxs[atIdx].append(defIdx)`). -/
def appendToRow (rows : List (List ℕ)) (a d : ℕ) : List (List ℕ) :=
  rows.set a (rows.getD a [] ++ [d])

/-- The nested membership-building loops: for each definition index `d0, d0+1,
...` append it to the row of every atom in that definition's index set. -/
def buildRows (rows : List (List ℕ)) (idxsList : List (List ℕ)) (d0 : ℕ) : List (List ℕ) :=
  match idxsList with
  | [] => rows
  | idxs :: rest => buildRows (idxs.foldl (fun r a => appendToRow r a d0) rows) rest (d0 + 1)

/-- `set_coordination_number_definition`.  Without an engine the raw
definition is stored untouched.  With an engine the compiled data is first
reinitialized, then the validation loop runs (an error escapes at once), and
on success the membership rows for every atom of the system and the
`numberOfCores` array are built and the definition is published. -/
def set_coordination_number_definition (eng? : Option Engine) (st : State)
    (cnd : Option (List RawCNDef)) : State × Option Err :=
  match eng? with
  | none => ({ st with coordNumDef := cnd }, none)
  | some eng =>
      let defs := cnd.getD []
      match parseLoop eng initialize_constraint_data defs with
      | (st1, some e) => (st1, some e)
      | (st1, none) =>
          let N := eng.numberOfAtoms
          ({ st1 with
              asCoreDefIdxs := buildRows (List.replicate N []) st1.coresIndexes 0,
              inShellDefIdxs := buildRows (List.replicate N []) st1.shellsIndexes 0,
              numberOfCores := st1.coresIndexes.map (fun l => (l.length : ℚ)),
              coordNumDef := some defs }, none)

end ACNC

end Fullrmc

/-! ## AtomicCoordinationNumberConstraint: geometry kernel and move protocol -/

namespace Fullrmc

/-- Squared Euclidean distance between two coordinates. -/
def dist2 (a b : Vec3) : ℚ :=
  (a.x - b.x) ^ 2 + (a.y - b.y) ^ 2 + (a.z - b.z) ^ 2

namespace ACNC

/-- Modelled from the spec: the in-shell test of the geometry kernel
(`fullrmc.Core.atomic_coordination`, not part of the source excerpt) - a
shell atom `s` is counted for a core atom `c` when their distance lies in
`[rLower, rUpper)`, stated on squared distances (equivalent for the validated
bounds `0 <= rLower < rUpper`). -/
def inShellPair (coords : List Vec3) (lo hi : ℚ) (c s : ℕ) : Bool :=
  c != s && decide (lo ^ 2 ≤ dist2 (coords.getD c default) (coords.getD s default))
    && decide (dist2 (coords.getD c default) (coords.getD s default) < hi ^ 2)

/-- Ordered (core, shell) pair count of one definition: for every core atom,
the number of shell atoms inside its shell. -/
def countCoreShell (coords : List Vec3) (lo hi : ℚ) (cores shells : List ℕ) : ℕ :=
  (cores.map (fun c => shells.countP (fun s => inShellPair coords lo hi c s))).sum

/-- Ordered (core, shell) pair count restricted to pairs touching one of the
affected atom indexes. -/
def countCoreShellTouched (coords : List Vec3) (lo hi : ℚ) (M cores shells : List ℕ) : ℕ :=
  (cores.map (fun c =>
    shells.countP (fun s =>
      (decide (c ∈ M) || decide (s ∈ M)) && inShellPair coords lo hi c s))).sum

/-- Modelled from the spec: `all_atoms_coord_number_coords` accumulates, per
definition, the raw doubled pair count - every (core, shell) pair is
discovered once from the core side and once from the shell side ("pair counts
are naturally computed twice ... and must be divided by 2 exactly once"). -/
def all_atoms_coord_number_coords (st : State) (coords : List Vec3) : List ℚ :=
  (List.range st.coresIndexes.length).map (fun i =>
    2 * (countCoreShell coords (st.lowerShells.getD i 0) (st.upperShells.getD i 0)
          (st.coresIndexes.getD i []) (st.shellsIndexes.getD i []) : ℚ))

/-- Modelled from the spec: `multi_atoms_coord_number_coords` returns, per
definition, the subtotal contributed by pairs touching the affected indexes,
normalized like the committed totals so that "full-system and subset
(incremental) calls on the same inputs must be bit-reproducible with each
other". -/
def multi_atoms_coord_number_coords (indexes : List ℕ) (st : State) (coords : List Vec3) :
    List ℚ :=
  (List.range st.coresIndexes.length).map (fun i =>
    (countCoreShellTouched coords (st.lowerShells.getD i 0) (st.upperShells.getD i 0)
      indexes (st.coresIndexes.getD i []) (st.shellsIndexes.getD i []) : ℚ))

/-- The enumerate loop of `compute_standard_error`, accumulating the weighted
deviation of each definition whose mean coordination number leaves
`[minAtoms, maxAtoms]`. -/
def stdErrLoop (st : State) (coordNum : List ℚ) (idx : ℕ) (acc : ℚ) : ℚ :=
  match coordNum with
  | [] => acc
  | cn :: rest =>
      if cn < st.minAtoms.getD idx 0 then
        stdErrLoop st rest (idx + 1) (acc + st.weights.getD idx 0 * (st.minAtoms.getD idx 0 - cn))
      else if st.maxAtoms.getD idx 0 < cn then
        stdErrLoop st rest (idx + 1) (acc + st.weights.getD idx 0 * (cn - st.maxAtoms.getD idx 0))
      else stdErrLoop st rest (idx + 1) acc

/-- `compute_standard_error`: divide the data elementwise by `numberOfCores`
to get mean coordination numbers, then accumulate the per-definition weighted
deviations starting from `0`. -/
def compute_standard_error (st : State) (data : List ℚ) : ℚ :=
  stdErrLoop st (List.zipWith (fun v n : ℚ => v / n) data st.numberOfCores) 0 0

/-- The runtime attributes of the constraint added by the base `Constraint`
classes (modelled from the spec where used): the committed standard error, the
tentative after-move standard error, the two trial snapshots and the
`__coordNumDataAfterMove` array. -/
structure Run where
  cn : State
  standardError : ℚ
  afterMoveStandardError : Option ℚ
  activeAtomsDataBeforeMove : Option (List ℚ)
  activeAtomsDataAfterMove : Option (List ℚ)
  coordNumDataAfterMove : List ℚ
  deriving DecidableEq, Repr

/-- `compute_data`: run the full kernel, divide the raw doubled counts by two
(`self.__coordNumData /= FLOAT_TYPE(2.)`), clear both snapshots and set the
standard error from the new committed data. -/
def compute_data (r : Run) (coords : List Vec3) : Run :=
  let dat := (all_atoms_coord_number_coords r.cn coords).map (fun v => v / 2)
  let cn1 := { r.cn with coordNumData := dat }
  { r with cn := cn1,
           activeAtomsDataBeforeMove := none,
           activeAtomsDataAfterMove := none,
           standardError := compute_standard_error cn1 dat }

/-- `compute_before_move`: run the subset kernel on the current coordinates
and store the result as the before-move snapshot. -/
def compute_before_move (r : Run) (coords : List Vec3) (indexes : List ℕ) : Run :=
  { r with
      activeAtomsDataBeforeMove :=
        some (multi_atoms_coord_number_coords indexes r.cn coords),
      activeAtomsDataAfterMove := none }

/-- `compute_after_move`: save the affected rows of the shared coordinate
store, overwrite them with the trial coordinates, run the subset kernel,
restore the rows, store the after-move snapshot and the tentative
`committed - before + after` data and standard error.  The source restores the
coordinates on the straight-line path only (there is no `try/finally`), so the
boolean `kernelFails` - modelling the spec's open possibility that the kernel
signals a hard fault - short-circuits with the store still holding the trial
coordinates. -/
def compute_after_move (kernelFails : Bool) (r : Run) (coords : List Vec3)
    (indexes : List ℕ) (movedBoxCoordinates : List Vec3) :
    (Run × List Vec3) × Option Err :=
  let boxData := listRead coords indexes
  let coords1 := listWrite coords indexes movedBoxCoordinates
  if kernelFails then ((r, coords1), some .kernelError)
  else
    let afterMoveData := multi_atoms_coord_number_coords indexes r.cn coords1
    let coords2 := listWrite coords1 indexes boxData
    let cnAfter := List.zipWith (· + ·)
      (List.zipWith (· - ·) r.cn.coordNumData (r.activeAtomsDataBeforeMove.getD []))
      afterMoveData
    (({ r with activeAtomsDataAfterMove := some afterMoveData,
               coordNumDataAfterMove := cnAfter,
               afterMoveStandardError := some (compute_standard_error r.cn cnAfter) },
      coords2), none)

/-- `accept_move`: commit `__coordNumDataAfterMove`, clear the snapshots and
promote the tentative standard error. -/
def accept_move (r : Run) : Run :=
  { r with cn := { r.cn with coordNumData := r.coordNumDataAfterMove },
           activeAtomsDataBeforeMove := none,
           activeAtomsDataAfterMove := none,
           standardError := r.afterMoveStandardError.getD r.standardError,
           afterMoveStandardError := none }

/-- `reject_move`: clear the snapshots and the tentative standard error; the
committed data and standard error are not touched. -/
def reject_move (r : Run) : Run :=
  { r with activeAtomsDataBeforeMove := none,
           activeAtomsDataAfterMove := none,
           afterMoveStandardError := none }

/-- One trial move: the affected atom indexes and their trial coordinates. -/
structure MoveCycle where
  indexes : List ℕ
  movedBoxCoordinates : List Vec3
  deriving DecidableEq, Repr

/-- One accepted trial-move cycle, as driven by the external engine (spec
section 4.4): `compute_before_move`, `compute_after_move`, `accept_move`, after
which the engine commits the trial coordinates into the shared store. -/
def runAcceptedCycle (rc : Run × List Vec3) (m : MoveCycle) : Run × List Vec3 :=
  let r1 := compute_before_move rc.1 rc.2 m.indexes
  let r2 := (compute_after_move false r1 rc.2 m.indexes m.movedBoxCoordinates).1.1
  let cs2 := (compute_after_move false r1 rc.2 m.indexes m.movedBoxCoordinates).1.2
  (accept_move r2, listWrite cs2 m.indexes m.movedBoxCoordinates)

end ACNC

end Fullrmc

/-! ## Consistency of the incremental coordination update -/

namespace Fullrmc

theorem countP_split (q p : α → Bool) (l : List α) :
    l.countP p
      = l.countP (fun a => q a && p a) + l.countP (fun a => !q a && p a) := by
  induction l with
  | nil => rfl
  | cons a l ih =>
    simp only [List.countP_cons, ih]
    cases hq : q a <;> cases hp : p a <;> simp <;> omega

namespace ACNC

theorem inShellPair_eq_of_agree (coords coords' : List Vec3) (lo hi : ℚ) (c s : ℕ)
    (hc : coords'[c]? = coords[c]?) (hs : coords'[s]? = coords[s]?) :
    inShellPair coords' lo hi c s = inShellPair coords lo hi c s := by
  unfold inShellPair
  rw [List.getD_eq_getElem?_getD, List.getD_eq_getElem?_getD, hc, hs,
    ← List.getD_eq_getElem?_getD, ← List.getD_eq_getElem?_getD]

/-- The pair count of one definition after moving the atoms in `M` equals the
old count minus the old touched subtotal plus the new touched subtotal
(stated addition-only over `ℕ`). -/
theorem countCoreShell_touch_split (coords coords' : List Vec3) (lo hi : ℚ)
    (M cores shells : List ℕ)
    (h : ∀ p : ℕ, p ∉ M → coords'[p]? = coords[p]?) :
    countCoreShell coords' lo hi cores shells
        + countCoreShellTouched coords lo hi M cores shells
      = countCoreShell coords lo hi cores shells
        + countCoreShellTouched coords' lo hi M cores shells := by
  induction cores with
  | nil => rfl
  | cons c cs ih =>
    have congrUntouched :
        (fun s => !(decide (c ∈ M) || decide (s ∈ M)) && inShellPair coords' lo hi c s)
          = (fun s => !(decide (c ∈ M) || decide (s ∈ M)) && inShellPair coords lo hi c s) := by
      funext s
      by_cases hc : c ∈ M
      · simp [hc]
      · by_cases hs : s ∈ M
        · simp [hs]
        · simp only [hc, hs, decide_eq_false, Bool.or_self, Bool.not_false, Bool.true_and]
          exact inShellPair_eq_of_agree coords coords' lo hi c s (h c hc) (h s hs)
    have split' := countP_split (fun s => decide (c ∈ M) || decide (s ∈ M))
      (fun s => inShellPair coords' lo hi c s) shells
    have split := countP_split (fun s => decide (c ∈ M) || decide (s ∈ M))
      (fun s => inShellPair coords lo hi c s) shells
    rw [congrUntouched] at split'
    simp only [countCoreShell, countCoreShellTouched, List.map_cons, List.sum_cons] at *
    omega

/-- Specification-side committed data: per definition, the exact ordered pair
count from the current coordinates. -/
def dataSpec (st : State) (coords : List Vec3) : List ℚ :=
  (List.range st.coresIndexes.length).map (fun i =>
    (countCoreShell coords (st.lowerShells.getD i 0) (st.upperShells.getD i 0)
      (st.coresIndexes.getD i []) (st.shellsIndexes.getD i []) : ℚ))

theorem compute_data_coordNumData (r : Run) (coords : List Vec3) :
    (compute_data r coords).cn.coordNumData = dataSpec r.cn coords := by
  show ((all_atoms_coord_number_coords r.cn coords).map (fun v => v / 2))
    = dataSpec r.cn coords
  unfold all_atoms_coord_number_coords dataSpec
  rw [List.map_map]
  apply List.map_congr_left
  intro i _
  exact mul_div_cancel_left₀ _ two_ne_zero

/-- The committed-minus-before-plus-after update reproduces the full pair
count at the post-move coordinates. -/
theorem incremental_update_eq_dataSpec (st : State) (coords : List Vec3)
    (indexes : List ℕ) (vals : List Vec3) :
    List.zipWith (· + ·)
        (List.zipWith (· - ·) (dataSpec st coords)
          (multi_atoms_coord_number_coords indexes st coords))
        (multi_atoms_coord_number_coords indexes st (listWrite coords indexes vals))
      = dataSpec st (listWrite coords indexes vals) := by
  unfold dataSpec multi_atoms_coord_number_coords
  rw [List.zipWith_map (· - ·), List.zipWith_same, List.zipWith_map (· + ·),
    List.zipWith_same]
  apply List.map_congr_left
  intro i _
  have h := countCoreShell_touch_split coords (listWrite coords indexes vals)
    (st.lowerShells.getD i 0) (st.upperShells.getD i 0) indexes
    (st.coresIndexes.getD i []) (st.shellsIndexes.getD i [])
    (fun p hp => getElem?_listWrite_of_not_mem coords indexes vals hp)
  have h' : ((countCoreShell (listWrite coords indexes vals) (st.lowerShells.getD i 0)
      (st.upperShells.getD i 0) (st.coresIndexes.getD i []) (st.shellsIndexes.getD i []) : ℕ) : ℚ)
        + (countCoreShellTouched coords (st.lowerShells.getD i 0) (st.upperShells.getD i 0)
            indexes (st.coresIndexes.getD i []) (st.shellsIndexes.getD i []) : ℕ)
      = ((countCoreShell coords (st.lowerShells.getD i 0) (st.upperShells.getD i 0)
            (st.coresIndexes.getD i []) (st.shellsIndexes.getD i []) : ℕ) : ℚ)
        + (countCoreShellTouched (listWrite coords indexes vals) (st.lowerShells.getD i 0)
            (st.upperShells.getD i 0) indexes (st.coresIndexes.getD i [])
            (st.shellsIndexes.getD i []) : ℕ) := by
    exact_mod_cast congrArg (fun n : ℕ => (n : ℚ)) h
  linarith

end ACNC

end Fullrmc

namespace Fullrmc

namespace ACNC

theorem dataSpec_set_data (st : State) (X : List ℚ) (coords : List Vec3) :
    dataSpec { st with coordNumData := X } coords = dataSpec st coords := rfl

/-- Replace only the committed data array of a compiled state. -/
def State.withData (st : State) (X : List ℚ) : State :=
  { st with coordNumData := X }

/-- The tentative committed data of one cycle:
`committed - before_subtotal + after_subtotal`. -/
def incrementedData (st : State) (coords : List Vec3) (m : MoveCycle) : List ℚ :=
  List.zipWith (· + ·)
    (List.zipWith (· - ·) st.coordNumData
      (multi_atoms_coord_number_coords m.indexes st coords))
    (multi_atoms_coord_number_coords m.indexes st
      (listWrite coords m.indexes m.movedBoxCoordinates))

/-- Unfolding one accepted cycle: the committed data becomes
`committed - before + after`, and the shared store ends at the trial
coordinates committed by the engine (the in-call mutation was restored, so the
only surviving write is the engine's own commit of the accepted move). -/
theorem runAcceptedCycle_proj (r : Run) (coords : List Vec3) (m : MoveCycle) :
    (runAcceptedCycle (r, coords) m).1.cn
        = State.withData r.cn (incrementedData r.cn coords m)
      ∧ (runAcceptedCycle (r, coords) m).2
        = listWrite coords m.indexes m.movedBoxCoordinates := by
  unfold runAcceptedCycle compute_before_move compute_after_move accept_move
  unfold State.withData incrementedData
  simp only [Bool.false_eq_true, if_false, Option.getD_some]
  exact ⟨by trivial, by rw [listWrite_write_restore]⟩

theorem foldl_runAcceptedCycle_invariant (moves : List MoveCycle) (r : Run)
    (coords : List Vec3) (h : r.cn.coordNumData = dataSpec r.cn coords) :
    (moves.foldl runAcceptedCycle (r, coords)).1.cn.coordNumData
      = dataSpec (moves.foldl runAcceptedCycle (r, coords)).1.cn
          (moves.foldl runAcceptedCycle (r, coords)).2 := by
  induction moves generalizing r coords with
  | nil => exact h
  | cons m ms ih =>
    rw [List.foldl_cons]
    obtain ⟨hcn, hcs⟩ := runAcceptedCycle_proj r coords m
    have hstep : (runAcceptedCycle (r, coords) m).1.cn.coordNumData
        = dataSpec (runAcceptedCycle (r, coords) m).1.cn (runAcceptedCycle (r, coords) m).2 := by
      rw [hcn, hcs]
      show incrementedData r.cn coords m = dataSpec (State.withData r.cn _) _
      unfold State.withData incrementedData
      rw [dataSpec_set_data, h]
      exact incremental_update_eq_dataSpec r.cn coords m.indexes m.movedBoxCoordinates
    have := ih (runAcceptedCycle (r, coords) m).1 (runAcceptedCycle (r, coords) m).2 hstep
    simpa using this

end ACNC

/-- C1: for every sequence of trial-move cycles each ending in `accept_move`,
the committed per-definition data of the coordination constraint after those
incremental updates (`committed - before_subtotal + after_subtotal` at each
accept) equals the result of a full `compute_data()` recompute from the final
coordinates (exactly, in the rational embedding); the division of raw doubled
pair counts by 2 is applied exactly once in both paths. -/
theorem C1_coordination_incremental_consistency (r0 : ACNC.Run) (coords0 : List Vec3)
    (moves : List ACNC.MoveCycle) :
    (moves.foldl ACNC.runAcceptedCycle (ACNC.compute_data r0 coords0, coords0)).1.cn.coordNumData
      = (ACNC.compute_data
          (moves.foldl ACNC.runAcceptedCycle (ACNC.compute_data r0 coords0, coords0)).1
          (moves.foldl ACNC.runAcceptedCycle (ACNC.compute_data r0 coords0, coords0)).2
        ).cn.coordNumData := by
  rw [ACNC.compute_data_coordNumData]
  exact ACNC.foldl_runAcceptedCycle_invariant moves (ACNC.compute_data r0 coords0) coords0
    (ACNC.compute_data_coordNumData r0 coords0)

end Fullrmc

/-! ## C5: the coordination standard-error aggregator -/

namespace Fullrmc

namespace ACNC

/-- Specification-side deviation of one definition (spec section 4.5):
`weight*(nMin-mean)` below the window, `weight*(mean-nMax)` above it, else 0. -/
def cnDeviation (nMin nMax w mean : ℚ) : ℚ :=
  if mean < nMin then w * (nMin - mean)
  else if nMax < mean then w * (mean - nMax)
  else 0

theorem stdErrLoop_eq_sum (st : State) (coordNum : List ℚ) (idx : ℕ) (acc : ℚ) :
    stdErrLoop st coordNum idx acc
      = acc + ((List.range coordNum.length).map (fun j =>
          cnDeviation (st.minAtoms.getD (idx + j) 0) (st.maxAtoms.getD (idx + j) 0)
            (st.weights.getD (idx + j) 0) (coordNum.getD j 0))).sum := by
  induction coordNum generalizing idx acc with
  | nil => simp [stdErrLoop]
  | cons cn rest ih =>
    rw [List.length_cons, List.range_succ_eq_map, List.map_cons, List.map_map,
      List.sum_cons]
    have hmapeq : ((List.range rest.length).map
          ((fun j => cnDeviation (st.minAtoms.getD (idx + j) 0) (st.maxAtoms.getD (idx + j) 0)
            (st.weights.getD (idx + j) 0) ((cn :: rest).getD j 0)) ∘ Nat.succ))
        = ((List.range rest.length).map (fun j =>
            cnDeviation (st.minAtoms.getD (idx + 1 + j) 0) (st.maxAtoms.getD (idx + 1 + j) 0)
              (st.weights.getD (idx + 1 + j) 0) (rest.getD j 0))) := by
      apply List.map_congr_left
      intro j _
      have harith : idx + (j + 1) = idx + 1 + j := by omega
      simp [Function.comp, harith]
    rw [hmapeq]
    show stdErrLoop st (cn :: rest) idx acc = _
    unfold stdErrLoop
    split_ifs with h1 h2
    · rw [ih]
      unfold cnDeviation
      rw [if_pos (by simpa using h1)]
      simp only [List.getD_cons_zero, Nat.add_zero]
      ring
    · rw [ih]
      unfold cnDeviation
      rw [if_neg (by simpa using h1), if_pos (by simpa using h2)]
      simp only [List.getD_cons_zero, Nat.add_zero]
      ring
    · rw [ih]
      unfold cnDeviation
      rw [if_neg (by simpa using h1), if_neg (by simpa using h2)]
      ring

theorem getD_zipWith_div (data cores : List ℚ) (j : ℕ) (hj : j < data.length)
    (hlen : cores.length = data.length) :
    (List.zipWith (fun v n : ℚ => v / n) data cores).getD j 0
      = data.getD j 0 / cores.getD j 0 := by
  rw [List.getD_eq_getElem?_getD, List.getD_eq_getElem?_getD, List.getD_eq_getElem?_getD,
    List.getElem?_zipWith', List.getElem?_eq_getElem hj,
    List.getElem?_eq_getElem (show j < cores.length by omega)]
  rfl

/-- The definition state of the claim's example: a single definition with one
core atom, `nMin = nMax = 2` and weight 1. -/
def exampleState : State :=
  ⟨none, [[0]], [1], [[1, 2, 3]], [1/2], [2], [2], [2], [0], [1], [], []⟩

end ACNC

/-- C5: for every per-definition data array (of the compiled length), the
coordination constraint's `compute_standard_error` returns the sum over
definitions of `weight*(nMin-mean)` when `mean < nMin`, `weight*(mean-nMax)`
when `mean > nMax` and 0 otherwise, with `mean = totalCount/numberOfCores`;
and with one core atom counting 3 neighbours against `nMin = nMax = 2` and
weight 1 it returns 1. -/
theorem C5_coordination_standard_error :
    (∀ (st : ACNC.State) (data : List ℚ),
      st.numberOfCores.length = data.length →
      ACNC.compute_standard_error st data
        = ((List.range data.length).map (fun i =>
            ACNC.cnDeviation (st.minAtoms.getD i 0) (st.maxAtoms.getD i 0)
              (st.weights.getD i 0) (data.getD i 0 / st.numberOfCores.getD i 0))).sum)
    ∧ ACNC.compute_standard_error ACNC.exampleState [3] = 1 := by
  constructor
  · intro st data hlen
    unfold ACNC.compute_standard_error
    rw [ACNC.stdErrLoop_eq_sum]
    have hlen2 : (List.zipWith (fun v n : ℚ => v / n) data st.numberOfCores).length
        = data.length := by
      rw [List.length_zipWith, hlen, Nat.min_self]
    rw [hlen2, zero_add]
    apply congrArg
    apply List.map_congr_left
    intro j hj
    rw [List.mem_range] at hj
    rw [Nat.zero_add, ACNC.getD_zipWith_div data st.numberOfCores j hj hlen]
  · norm_num [ACNC.compute_standard_error, ACNC.stdErrLoop, ACNC.exampleState]

/-- Witness for C5 at the example instance: the length side condition holds
and the aggregated value is the claimed piecewise sum. -/
theorem C5_coordination_standard_error_witness :
    ACNC.exampleState.numberOfCores.length = ([3] : List ℚ).length
      ∧ ACNC.compute_standard_error ACNC.exampleState [3]
        = ((List.range ([3] : List ℚ).length).map (fun i =>
            ACNC.cnDeviation (ACNC.exampleState.minAtoms.getD i 0)
              (ACNC.exampleState.maxAtoms.getD i 0)
              (ACNC.exampleState.weights.getD i 0)
              (([3] : List ℚ).getD i 0 / ACNC.exampleState.numberOfCores.getD i 0))).sum :=
  ⟨by decide, C5_coordination_standard_error.1 ACNC.exampleState [3] (by decide)⟩

end Fullrmc

/-! ## ImproperAngleConstraint: definition compilation -/

namespace Fullrmc

/-- The float constant `PI` of `fullrmc.Globals` (a machine float), embedded
as the float32 value nearest to the real number pi.  Every property proved
below depends only on its being a fixed positive rational. -/
def PI : ℚ := 13176795 / 4194304

namespace IAC

/-- The per-atom record of the `__angles` dictionary: the partner-atom lists
of the angles whose improper atom this is, and the maps from this atom to the
positions of its angles inside `__anglesList` (as improper atom and as any of
the three plane atoms respectively). -/
structure AngleEntry where
  oIdx : List ℕ
  xIdx : List ℕ
  yIdx : List ℕ
  improperMap : List ℕ
  otherMap : List ℕ
  deriving DecidableEq, Repr

/-- The fresh record `{"oIdx":[],"xIdx":[],"yIdx":[],"improperMap":[],
"otherMap":[]}`. -/
def emptyEntry : AngleEntry := ⟨[], [], [], [], []⟩

/-- The per-frame attributes of `ImproperAngleConstraint`: the six parallel
arrays of `__anglesList` (improper, O, X, Y atom indexes and the two bound
arrays in radians) and the `__angles` dictionary. -/
structure Defs where
  anglesList0 : List ℕ
  anglesList1 : List ℕ
  anglesList2 : List ℕ
  anglesList3 : List ℕ
  anglesList4 : List ℚ
  anglesList5 : List ℚ
  angles : ℕ → Option AngleEntry

/-- The reset state `[[],[],[],[],[],[]]` with an empty dictionary. -/
def emptyDefs : Defs := ⟨[], [], [], [], [], [], fun _ => none⟩

/-- Dictionary read with the fresh-record default
(`self.__angles.has_key(...)` branch of `add_angle`). -/
def entryOf (f : ℕ → Option AngleEntry) (a : ℕ) : AngleEntry :=
  (f a).getD emptyEntry

/-- One raw angle item: four atom indexes (machine integers) and the lower
and upper limits in degrees. -/
structure RawAngle where
  improperIdx : ℤ
  oIdx : ℤ
  xIdx : ℤ
  yIdx : ℤ
  lower : ℚ
  upper : ℚ
  deriving DecidableEq, Repr

/-- Python `sorted([a, b, c])`. -/
def sort3 (a b c : ℕ) : List ℕ :=
  List.insertionSort (· ≤ ·) [a, b, c]

/-- The redefinition scan of `add_angle`: the four `elif` branches match the
new `(o, x, y)` against the stored per-atom role lists of the improper atom,
taking `.index(...)` first occurrences, and the positions are used only when
all three coincide. -/
def matchPositions (eI : AngleEntry) (o x y : ℕ) : Option (ℕ × ℕ × ℕ) :=
  if o ∈ eI.oIdx ∧ x ∈ eI.xIdx ∧ y ∈ eI.yIdx then
    some (eI.oIdx.indexOf o, eI.xIdx.indexOf x, eI.yIdx.indexOf y)
  else if o ∈ eI.oIdx ∧ y ∈ eI.xIdx ∧ x ∈ eI.yIdx then
    some (eI.oIdx.indexOf o, eI.yIdx.indexOf x, eI.xIdx.indexOf y)
  else if x ∈ eI.oIdx ∧ o ∈ eI.xIdx ∧ y ∈ eI.yIdx then
    some (eI.xIdx.indexOf o, eI.oIdx.indexOf x, eI.yIdx.indexOf y)
  else if y ∈ eI.oIdx ∧ x ∈ eI.xIdx ∧ o ∈ eI.yIdx then
    some (eI.yIdx.indexOf o, eI.xIdx.indexOf x, eI.oIdx.indexOf y)
  else none

/-- The `setPos` computed by the redefinition scan: the matched entry's
position in `__anglesList`, provided the three first-occurrence positions
coincide. -/
def setPosOf (eI : AngleEntry) (o x y : ℕ) : Option ℕ :=
  match matchPositions eI o x y with
  | some (oPos, xPos, yPos) =>
      if oPos = xPos ∧ oPos = yPos then some (eI.improperMap.getD oPos 0) else none
  | none => none

/-- Update the `__angles` dictionary at one key. -/
def updEntry (f : ℕ → Option AngleEntry) (k : ℕ) (e : AngleEntry) :
    ℕ → Option AngleEntry :=
  Function.update f k (some e)

/-- The in-place redefinition outcome of `add_angle`: the matched position's
atoms and bounds are overwritten and the four dictionary records are
re-assigned unchanged. -/
def overwriteResult (dfs : Defs) (i o x y : ℕ) (lower' upper' : ℚ) (setPos : ℕ) : Defs :=
  { dfs with
      anglesList1 := dfs.anglesList1.set setPos o,
      anglesList2 := dfs.anglesList2.set setPos x,
      anglesList3 := dfs.anglesList3.set setPos y,
      anglesList4 := dfs.anglesList4.set setPos lower',
      anglesList5 := dfs.anglesList5.set setPos upper',
      angles := updEntry (updEntry (updEntry (updEntry dfs.angles i
        (entryOf dfs.angles i)) o (entryOf dfs.angles o)) x (entryOf dfs.angles x)) y
        (entryOf dfs.angles y) }

/-- The append outcome of `add_angle`: a new angle at position
`len(anglesList[0])`, recorded in the improper atom's role lists and improper
map and in the three plane atoms' other maps. -/
def appendResult (dfs : Defs) (i o x y : ℕ) (lower' upper' : ℚ) : Defs :=
  { dfs with
      anglesList0 := dfs.anglesList0 ++ [i],
      anglesList1 := dfs.anglesList1 ++ [o],
      anglesList2 := dfs.anglesList2 ++ [x],
      anglesList3 := dfs.anglesList3 ++ [y],
      anglesList4 := dfs.anglesList4 ++ [lower'],
      anglesList5 := dfs.anglesList5 ++ [upper'],
      angles := updEntry (updEntry (updEntry (updEntry dfs.angles i
        ⟨(entryOf dfs.angles i).oIdx ++ [o], (entryOf dfs.angles i).xIdx ++ [x],
         (entryOf dfs.angles i).yIdx ++ [y],
         (entryOf dfs.angles i).improperMap ++ [dfs.anglesList0.length],
         (entryOf dfs.angles i).otherMap⟩) o
        ⟨(entryOf dfs.angles o).oIdx, (entryOf dfs.angles o).xIdx,
         (entryOf dfs.angles o).yIdx, (entryOf dfs.angles o).improperMap,
         (entryOf dfs.angles o).otherMap ++ [dfs.anglesList0.length]⟩) x
        ⟨(entryOf dfs.angles x).oIdx, (entryOf dfs.angles x).xIdx,
         (entryOf dfs.angles x).yIdx, (entryOf dfs.angles x).improperMap,
         (entryOf dfs.angles x).otherMap ++ [dfs.anglesList0.length]⟩) y
        ⟨(entryOf dfs.angles y).oIdx, (entryOf dfs.angles y).xIdx,
         (entryOf dfs.angles y).yIdx, (entryOf dfs.angles y).improperMap,
         (entryOf dfs.angles y).otherMap ++ [dfs.anglesList0.length]⟩ }

/-- The mutation part of `add_angle` once every validation has passed:
either overwrite the matched entry in place (redefinition, with the two
consistency asserts, which fail into `Err.invalidSelector`) or append a new
angle at position `len(anglesList[0])`. -/
def addAngleBody (dfs : Defs) (i o x y : ℕ) (lower' upper' : ℚ) : Defs × Option Err :=
  match setPosOf (entryOf dfs.angles i) o x y with
  | some setPos =>
      if ¬ (dfs.anglesList0.getD setPos 0 = i) then (dfs, some .invalidSelector)
      else if ¬ (sort3 o x y
          = sort3 (dfs.anglesList1.getD setPos 0) (dfs.anglesList2.getD setPos 0)
              (dfs.anglesList3.getD setPos 0)) then (dfs, some .invalidSelector)
      else (overwriteResult dfs i o x y lower' upper' setPos, none)
  | none => (appendResult dfs i o x y lower' upper', none)

/-- The assert chain of `add_angle` in source order, producing the first
raised error (index-range and distinctness to `Err.invalidSelector`,
numeric-ordering to `Err.invalidBounds`). -/
def validateAngle (eng : Engine) (a : RawAngle) : Option Err :=
  if ¬ (0 ≤ a.improperIdx) then some .invalidSelector
  else if ¬ (a.improperIdx < (eng.numberOfAtoms : ℤ)) then some .invalidSelector
  else if ¬ (0 ≤ a.oIdx) then some .invalidSelector
  else if ¬ (a.oIdx < (eng.numberOfAtoms : ℤ)) then some .invalidSelector
  else if ¬ (0 ≤ a.xIdx) then some .invalidSelector
  else if ¬ (a.xIdx < (eng.numberOfAtoms : ℤ)) then some .invalidSelector
  else if ¬ (0 ≤ a.yIdx) then some .invalidSelector
  else if ¬ (a.yIdx < (eng.numberOfAtoms : ℤ)) then some .invalidSelector
  else if a.improperIdx = a.oIdx then some .invalidSelector
  else if a.improperIdx = a.xIdx then some .invalidSelector
  else if a.improperIdx = a.yIdx then some .invalidSelector
  else if a.oIdx = a.xIdx then some .invalidSelector
  else if a.oIdx = a.yIdx then some .invalidSelector
  else if a.xIdx = a.yIdx then some .invalidSelector
  else if ¬ (-90 ≤ a.lower) then some .invalidBounds
  else if ¬ (a.lower < a.upper) then some .invalidBounds
  else if ¬ (a.upper ≤ 90) then some .invalidBounds
  else none

/-- `add_angle`: validation in source order, the degree-to-radian conversion
by the float factor `PI/180`, and then the overwrite-or-append body.  Every
state mutation of the source happens after the last validation, so an error
leaves the state untouched. -/
def add_angle (eng : Engine) (dfs : Defs) (a : RawAngle) : Defs × Option Err :=
  match validateAngle eng a with
  | some e => (dfs, some e)
  | none =>
      addAngleBody dfs a.improperIdx.toNat a.oIdx.toNat a.xIdx.toNat a.yIdx.toNat
        (a.lower * (PI / 180)) (a.upper * (PI / 180))

/-- The `for angle in anglesList: self.add_angle(angle)` loop of `set_angles`
(tuples format); a raised validation error escapes the loop at once. -/
def addAngleLoop (eng : Engine) (dfs : Defs) (raws : List RawAngle) : Defs × Option Err :=
  match raws with
  | [] => (dfs, none)
  | a :: rest =>
      match add_angle eng dfs a with
      | (dfs', none) => addAngleLoop eng dfs' rest
      | (dfs', some e) => (dfs', some e)

/-- The finalize loop of `set_angles`: give every atom of the system a
(possibly fresh empty) dictionary record. -/
def finalize (N : ℕ) (f : ℕ → Option AngleEntry) : ℕ → Option AngleEntry :=
  fun a => if a < N then some ((f a).getD emptyEntry) else f a

/-- `set_angles` with an attached engine (tuples format): remember the old
compiled state, rebuild from empty via `add_angle`, and on any validation
error restore the old `__anglesList` and `__angles` before re-raising; on
success finalize the dictionary over every atom of the system. -/
def set_angles (eng : Engine) (dfs : Defs) (raws : List RawAngle) : Defs × Option Err :=
  match addAngleLoop eng emptyDefs raws with
  | (_, some e) => (dfs, some e)
  | (dfs1, none) =>
      ({ dfs1 with angles := finalize eng.numberOfAtoms dfs1.angles }, none)

end IAC

end Fullrmc

/-! ## ImproperAngleConstraint: geometry kernel and move protocol -/

namespace Fullrmc

namespace IAC

/-- Modelled from the spec: the reduced deviation produced by the angle
kernel with `reduceAngleToUpper = reduceAngleToLower = False` - zero for an
angle inside `[lower, upper]` and the signed out-of-bounds distance
otherwise. -/
def reducedDeviation (angle lower upper : ℚ) : ℚ :=
  if angle < lower then angle - lower
  else if upper < angle then angle - upper
  else 0

/-- Modelled from the spec: `full_improper_angles_coords`
(`fullrmc.Core.improper_angles`, not part of the source excerpt) returns, for
each selected angle position, the improper angle between the improper vector
and the plane together with its reduced deviation.  The transcendental angle
computation itself is abstracted as the parameter `angleOf` over the four
involved coordinates, since the spec leaves its degenerate-geometry policy
open; atom lookups go through the collector relative mapping, modelled as
the identity (no collected atoms in flight). -/
def kernelAngleAt (angleOf : Vec3 → Vec3 → Vec3 → Vec3 → ℚ) (dfs : Defs)
    (coords : List Vec3) (k : ℕ) : ℚ :=
  angleOf (coords.getD (dfs.anglesList0.getD k 0) default)
    (coords.getD (dfs.anglesList1.getD k 0) default)
    (coords.getD (dfs.anglesList2.getD k 0) default)
    (coords.getD (dfs.anglesList3.getD k 0) default)

def full_improper_angles_coords (angleOf : Vec3 → Vec3 → Vec3 → Vec3 → ℚ)
    (dfs : Defs) (aIdxs : List ℕ) (coords : List Vec3) : List ℚ × List ℚ :=
  (aIdxs.map (kernelAngleAt angleOf dfs coords),
   aIdxs.map (fun k =>
     reducedDeviation (kernelAngleAt angleOf dfs coords k)
       (dfs.anglesList4.getD k 0) (dfs.anglesList5.getD k 0)))

/-- The committed data record `{"angles": ..., "reducedAngles": ...}`. -/
structure AngleData where
  angles : List ℚ
  reducedAngles : List ℚ
  deriving DecidableEq, Repr

/-- `compute_standard_error`: the sum of the squared reduced angles,
`np.sum(data["reducedAngles"]**2)`. -/
def compute_standard_error (data : AngleData) : ℚ :=
  (data.reducedAngles.map (fun v => v ^ 2)).sum

/-- The runtime attributes used by the angle constraint's move protocol: the
committed data record and standard error, the tentative after-move standard
error and the before/after snapshots (the before snapshot also records the
affected angle positions). -/
structure Run where
  data : AngleData
  standardError : ℚ
  afterMoveStandardError : Option ℚ
  beforeAnglesIndexes : Option (List ℕ)
  beforeAngles : Option (List ℚ)
  beforeReduced : Option (List ℚ)
  afterAngles : Option (List ℚ)
  afterReduced : Option (List ℚ)
  deriving DecidableEq, Repr

/-- The affected-angle selection of `compute_before_move`:
`list(set(improperMap + otherMap over the real indexes) - set(randomData))`. -/
def affectedAngleIndexes (dfs : Defs) (collected : List ℕ) (realIndexes : List ℕ) : List ℕ :=
  ((realIndexes.map (fun idx =>
      (entryOf dfs.angles idx).improperMap ++ (entryOf dfs.angles idx).otherMap)).flatten).dedup.filter
    (fun k => decide (k ∉ collected))

/-- `compute_before_move`: select the affected angle positions through the
membership dictionary, run the kernel on the current coordinates when any
were selected and store the before snapshot. -/
def compute_before_move (angleOf : Vec3 → Vec3 → Vec3 → Vec3 → ℚ) (dfs : Defs)
    (collected : List ℕ) (r : Run) (coords : List Vec3) (realIndexes : List ℕ) : Run :=
  let aIdxs := affectedAngleIndexes dfs collected realIndexes
  if aIdxs.isEmpty then
    { r with beforeAnglesIndexes := some aIdxs, beforeAngles := none,
             beforeReduced := none, afterAngles := none, afterReduced := none }
  else
    let ar := full_improper_angles_coords angleOf dfs aIdxs coords
    { r with beforeAnglesIndexes := some aIdxs, beforeAngles := some ar.1,
             beforeReduced := some ar.2, afterAngles := none, afterReduced := none }

/-- `compute_after_move`: save the affected coordinate rows, write the trial
coordinates, run the kernel over the before-snapshot's angle positions,
restore the rows, then evaluate the tentative standard error by patching the
committed reduced angles in place (`+= reduced - before`), reading the
aggregate and writing the saved values back.  As in the coordination variant
the restore exists only on the straight-line path; `kernelFails` models a
kernel call that raises. -/
def compute_after_move (kernelFails : Bool) (angleOf : Vec3 → Vec3 → Vec3 → Vec3 → ℚ)
    (dfs : Defs) (r : Run) (coords : List Vec3) (relativeIndexes : List ℕ)
    (movedBoxCoordinates : List Vec3) : (Run × List Vec3) × Option Err :=
  let aIdxs := r.beforeAnglesIndexes.getD []
  let boxData := listRead coords relativeIndexes
  let coords1 := listWrite coords relativeIndexes movedBoxCoordinates
  if kernelFails then ((r, coords1), some .kernelError)
  else if aIdxs.isEmpty then
    (({ r with afterAngles := none, afterReduced := none,
               afterMoveStandardError := some r.standardError },
      listWrite coords1 relativeIndexes boxData), none)
  else
    let ar := full_improper_angles_coords angleOf dfs aIdxs coords1
    let coords2 := listWrite coords1 relativeIndexes boxData
    let RL := listRead r.data.reducedAngles aIdxs
    let patched := listWrite r.data.reducedAngles aIdxs
      (List.zipWith (· + ·) RL (List.zipWith (· - ·) ar.2 (r.beforeReduced.getD [])))
    let afterSE := compute_standard_error ⟨r.data.angles, patched⟩
    let restored := listWrite patched aIdxs RL
    (({ r with afterAngles := some ar.1, afterReduced := some ar.2,
               data := ⟨r.data.angles, restored⟩,
               afterMoveStandardError := some afterSE }, coords2), none)

/-- `accept_move`: when any angle was affected, add `after - before` into the
committed angle and reduced arrays and promote the tentative standard error;
always clear both snapshots. -/
def accept_move (r : Run) : Run :=
  let aIdxs := r.beforeAnglesIndexes.getD []
  if aIdxs.isEmpty then
    { r with beforeAnglesIndexes := none, beforeAngles := none, beforeReduced := none,
             afterAngles := none, afterReduced := none }
  else
    let newAngles := listWrite r.data.angles aIdxs
      (List.zipWith (· + ·) (listRead r.data.angles aIdxs)
        (List.zipWith (· - ·) (r.afterAngles.getD []) (r.beforeAngles.getD [])))
    let newReduced := listWrite r.data.reducedAngles aIdxs
      (List.zipWith (· + ·) (listRead r.data.reducedAngles aIdxs)
        (List.zipWith (· - ·) (r.afterReduced.getD []) (r.beforeReduced.getD [])))
    { r with data := ⟨newAngles, newReduced⟩,
             standardError := r.afterMoveStandardError.getD r.standardError,
             beforeAnglesIndexes := none, beforeAngles := none, beforeReduced := none,
             afterAngles := none, afterReduced := none }

/-- `reject_move`: clear both snapshots; the committed data and standard
error are untouched. -/
def reject_move (r : Run) : Run :=
  { r with beforeAnglesIndexes := none, beforeAngles := none, beforeReduced := none,
           afterAngles := none, afterReduced := none }

/-- `accept_amputation`: zero the committed angle and reduced entries of
every angle position involving the amputated atom and recompute the standard
error from the zeroed record; then clear the before snapshot. -/
def amputatedAngleIndexes (dfs : Defs) (realIndex : ℕ) : List ℕ :=
  ((entryOf dfs.angles realIndex).improperMap
    ++ (entryOf dfs.angles realIndex).otherMap).dedup

def accept_amputation (dfs : Defs) (r : Run) (realIndex : ℕ) : Run :=
  let AI := amputatedAngleIndexes dfs realIndex
  if AI.isEmpty then
    { r with beforeAnglesIndexes := none, beforeAngles := none, beforeReduced := none }
  else
    let newAngles := listWrite r.data.angles AI (AI.map (fun _ => 0))
    let newReduced := listWrite r.data.reducedAngles AI (AI.map (fun _ => 0))
    { r with data := ⟨newAngles, newReduced⟩,
             standardError := compute_standard_error ⟨newAngles, newReduced⟩,
             beforeAnglesIndexes := none, beforeAngles := none, beforeReduced := none }

/-- `reject_amputation`: `pass`. -/
def reject_amputation (r : Run) (realIndex : ℕ) : Run := r

end IAC

end Fullrmc

/-! ## Concrete fixtures used by witnesses and counterexamples -/

namespace Fullrmc

/-- A two-atom engine with elements `A`, `B`. -/
def engA : Engine := ⟨2, ["A", "B"], ["a1", "b1"], ["A", "B"], ["a1", "b1"]⟩

/-- A five-atom engine of a single element. -/
def eng5 : Engine := ⟨5, ["C", "C", "C", "C", "C"], ["c0", "c1", "c2", "c3", "c4"],
  ["C"], ["c0", "c1", "c2", "c3", "c4"]⟩

/-- A valid raw coordination definition (string selectors). -/
def goodCN : ACNC.RawCNDef := ⟨.element "A", .element "B", 1, 2, 1, 1, none⟩

/-- A raw coordination definition naming a nonexistent element. -/
def badCN : ACNC.RawCNDef := ⟨.element "Z", .element "B", 1, 2, 1, 1, none⟩

/-- A raw coordination definition whose core selector is the documented
dictionary form `{'element': 'A'}` over an existing element. -/
def dictCN : ACNC.RawCNDef := ⟨.attr "element" "A", .element "B", 1, 2, 1, 1, none⟩

/-- The constraint state after compiling `goodCN` on `engA`. -/
def stGood : ACNC.State :=
  (ACNC.set_coordination_number_definition (some engA) ACNC.initialize_constraint_data
    (some [goodCN])).1

/-- A fresh coordination runtime with no compiled definitions. -/
def emptyCNRun : ACNC.Run := ⟨ACNC.initialize_constraint_data, 0, none, none, none, []⟩

/-! ## C2: coordinate restoration in compute_after_move -/

/-- C2 (amended): on both constraints, whenever the geometry computation of
`compute_after_move` completes, the shared coordinate store handed back equals
its pre-call value and no error is reported; the source restores the affected
rows only on this straight-line path. -/
theorem C2_coordinate_restoration_on_completion :
    (∀ (r : ACNC.Run) (coords : List Vec3) (indexes : List ℕ) (vals : List Vec3),
      (ACNC.compute_after_move false r coords indexes vals).1.2 = coords
        ∧ (ACNC.compute_after_move false r coords indexes vals).2 = none)
    ∧ (∀ (angleOf : Vec3 → Vec3 → Vec3 → Vec3 → ℚ) (dfs : IAC.Defs) (r : IAC.Run)
        (coords : List Vec3) (relIdx : List ℕ) (vals : List Vec3),
      (IAC.compute_after_move false angleOf dfs r coords relIdx vals).1.2 = coords
        ∧ (IAC.compute_after_move false angleOf dfs r coords relIdx vals).2 = none) := by
  constructor
  · intro r coords indexes vals
    unfold ACNC.compute_after_move
    simp only [Bool.false_eq_true, if_false]
    exact ⟨listWrite_write_restore coords indexes vals, trivial⟩
  · intro angleOf dfs r coords relIdx vals
    unfold IAC.compute_after_move
    simp only [Bool.false_eq_true, if_false]
    split
    · exact ⟨listWrite_write_restore coords relIdx vals, rfl⟩
    · exact ⟨listWrite_write_restore coords relIdx vals, rfl⟩

/-- C2 counterexample: when the geometry kernel raises inside
`compute_after_move` (spec's open hard-fault policy), the call exits on the
error path with the shared store still holding the trial coordinates, so the
claim's "on every exit path" fails at this concrete input. -/
theorem C2_counterexample_kernel_error_leaves_trial_state :
    (ACNC.compute_after_move true emptyCNRun [⟨0, 0, 0⟩] [0] [⟨1, 0, 0⟩]).2
        = some Err.kernelError
      ∧ (ACNC.compute_after_move true emptyCNRun [⟨0, 0, 0⟩] [0] [⟨1, 0, 0⟩]).1.2
        ≠ [⟨0, 0, 0⟩] := by
  constructor
  · rfl
  · decide

end Fullrmc

/-! ## C3: replace-or-keep atomicity of definition setting -/

namespace Fullrmc

/-- C3 (amended): the angle constraint's `set_angles` is atomic - any
validation failure hands back exactly the previous compiled definitions and
membership dictionary; the coordination constraint's
`set_coordination_number_definition` is not - with an engine attached its
result never depends on the previously compiled state at all, because the
state is reinitialized before validation starts. -/
theorem C3_definition_setting_atomicity :
    (∀ (eng : Engine) (dfs : IAC.Defs) (raws : List IAC.RawAngle) (e : Err),
      (IAC.set_angles eng dfs raws).2 = some e → (IAC.set_angles eng dfs raws).1 = dfs)
    ∧ (∀ (eng : Engine) (st st' : ACNC.State) (cnd : Option (List ACNC.RawCNDef)),
      (ACNC.set_coordination_number_definition (some eng) st cnd).1
        = (ACNC.set_coordination_number_definition (some eng) st' cnd).1) := by
  constructor
  · intro eng dfs raws e he
    unfold IAC.set_angles at he ⊢
    rcases h : IAC.addAngleLoop eng IAC.emptyDefs raws with ⟨d1, oe⟩
    cases oe with
    | none => rw [h] at he; exact Option.noConfusion he
    | some e' => rfl
  · intro eng st st' cnd
    unfold ACNC.set_coordination_number_definition
    rfl

/-- C3 counterexample: with one valid coordination definition compiled, a
second call whose definition fails selector validation raises, yet the
previously compiled core index sets are gone afterwards (the claim requires
them to remain exactly as before). -/
theorem C3_counterexample_failed_call_wipes_definitions :
    (ACNC.set_coordination_number_definition (some engA) stGood (some [badCN])).2
        = some Err.invalidSelector
      ∧ stGood.coresIndexes = [[0]]
      ∧ (ACNC.set_coordination_number_definition (some engA) stGood (some [badCN])).1.coresIndexes
        = [] := by
  refine ⟨rfl, ?_, rfl⟩
  decide

/-- Witness for the atomic branch of C3 at a concrete failing input: an angle
whose atoms are not pairwise distinct is rejected and the previous state is
returned. -/
theorem C3_definition_setting_atomicity_witness :
    (IAC.set_angles eng5 IAC.emptyDefs [⟨0, 0, 2, 3, -10, 10⟩]).2 = some Err.invalidSelector
      ∧ (IAC.set_angles eng5 IAC.emptyDefs [⟨0, 0, 2, 3, -10, 10⟩]).1 = IAC.emptyDefs :=
  ⟨rfl, C3_definition_setting_atomicity.1 eng5 IAC.emptyDefs [⟨0, 0, 2, 3, -10, 10⟩]
    Err.invalidSelector rfl⟩

/-! ## C4: rejecting a move leaves committed state bit-identical -/

namespace IAC

theorem compute_before_move_frame (angleOf : Vec3 → Vec3 → Vec3 → Vec3 → ℚ)
    (dfs : Defs) (collected : List ℕ) (r : Run) (coords : List Vec3)
    (realIndexes : List ℕ) :
    (compute_before_move angleOf dfs collected r coords realIndexes).data = r.data
      ∧ (compute_before_move angleOf dfs collected r coords realIndexes).standardError
        = r.standardError := by
  cases h : (affectedAngleIndexes dfs collected realIndexes).isEmpty <;>
    simp [compute_before_move, h]

theorem compute_after_move_frame (angleOf : Vec3 → Vec3 → Vec3 → Vec3 → ℚ)
    (dfs : Defs) (r : Run) (coords : List Vec3) (relIdx : List ℕ) (vals : List Vec3) :
    ((compute_after_move false angleOf dfs r coords relIdx vals).1.1).data = r.data
      ∧ ((compute_after_move false angleOf dfs r coords relIdx vals).1.1).standardError
        = r.standardError := by
  cases h : (r.beforeAnglesIndexes.getD []).isEmpty <;>
    simp [compute_after_move, h, listWrite_write_restore]

end IAC

/-- C4: a `compute_before_move` then `compute_after_move` pair followed by
`reject_move` leaves the committed per-definition data and committed standard
error of both constraints exactly as before the cycle; in particular the
in-place patch of the committed reduced-angles array performed inside the
angle constraint's `compute_after_move` is fully undone before that call
returns (the after-move state already carries the original data). -/
theorem C4_reject_is_committed_identity :
    (∀ (r : ACNC.Run) (coords : List Vec3) (indexes : List ℕ) (vals : List Vec3),
      (ACNC.reject_move ((ACNC.compute_after_move false
          (ACNC.compute_before_move r coords indexes) coords indexes vals).1.1)).cn.coordNumData
          = r.cn.coordNumData
        ∧ (ACNC.reject_move ((ACNC.compute_after_move false
            (ACNC.compute_before_move r coords indexes) coords indexes vals).1.1)).standardError
          = r.standardError)
    ∧ (∀ (angleOf : Vec3 → Vec3 → Vec3 → Vec3 → ℚ) (dfs : IAC.Defs) (collected : List ℕ)
        (r : IAC.Run) (coords : List Vec3) (realIdx relIdx : List ℕ) (vals : List Vec3),
      ((IAC.compute_after_move false angleOf dfs
          (IAC.compute_before_move angleOf dfs collected r coords realIdx)
          coords relIdx vals).1.1).data = r.data
        ∧ (IAC.reject_move ((IAC.compute_after_move false angleOf dfs
            (IAC.compute_before_move angleOf dfs collected r coords realIdx)
            coords relIdx vals).1.1)).data = r.data
        ∧ (IAC.reject_move ((IAC.compute_after_move false angleOf dfs
            (IAC.compute_before_move angleOf dfs collected r coords realIdx)
            coords relIdx vals).1.1)).standardError = r.standardError) := by
  constructor
  · intro r coords indexes vals
    exact ⟨rfl, rfl⟩
  · intro angleOf dfs collected r coords realIdx relIdx vals
    obtain ⟨hbd, hbs⟩ := IAC.compute_before_move_frame angleOf dfs collected r coords realIdx
    obtain ⟨had, has⟩ := IAC.compute_after_move_frame angleOf dfs
      (IAC.compute_before_move angleOf dfs collected r coords realIdx) coords relIdx vals
    refine ⟨had.trans hbd, ?_, ?_⟩
    · show ((IAC.compute_after_move false angleOf dfs _ coords relIdx vals).1.1).data = r.data
      exact had.trans hbd
    · show ((IAC.compute_after_move false angleOf dfs _ coords relIdx vals).1.1).standardError
        = r.standardError
      exact has.trans hbs

end Fullrmc

/-! ## C6: the angle standard-error aggregator -/

namespace Fullrmc

/-- A four-atom engine of a single element. -/
def eng4 : Engine := ⟨4, ["C", "C", "C", "C"], ["c0", "c1", "c2", "c3"],
  ["C"], ["c0", "c1", "c2", "c3"]⟩

/-- The compiled state of one angle definition `(0,1,2,3)` with bounds
`[-10°, 10°]`. -/
def angleDefs1 : IAC.Defs :=
  (IAC.set_angles eng4 IAC.emptyDefs [⟨0, 1, 2, 3, -10, 10⟩]).1

/-- An abstract geometry outcome: every four-atom tuple forms an angle of
20 degrees (in radians). -/
def angleOf20 : Vec3 → Vec3 → Vec3 → Vec3 → ℚ := fun _ _ _ _ => 20 * (PI / 180)

/-- C6: `compute_standard_error` of the kernel's data record is the sum over
all angle instances of the squared reduced deviation, the reduced deviation
being 0 inside the `[lower, upper]` bounds and the signed out-of-bounds
distance otherwise; an angle of 20 degrees against bounds `[-10°, 10°]`
contributes `(10°)²` (in radians). -/
theorem C6_angle_standard_error :
    (∀ (angleOf : Vec3 → Vec3 → Vec3 → Vec3 → ℚ) (dfs : IAC.Defs)
        (aIdxs : List ℕ) (coords : List Vec3),
      IAC.compute_standard_error
          ⟨(IAC.full_improper_angles_coords angleOf dfs aIdxs coords).1,
           (IAC.full_improper_angles_coords angleOf dfs aIdxs coords).2⟩
        = (aIdxs.map (fun k =>
            (IAC.reducedDeviation (IAC.kernelAngleAt angleOf dfs coords k)
              (dfs.anglesList4.getD k 0) (dfs.anglesList5.getD k 0)) ^ 2)).sum)
    ∧ IAC.compute_standard_error
        ⟨(IAC.full_improper_angles_coords angleOf20 angleDefs1 [0] []).1,
         (IAC.full_improper_angles_coords angleOf20 angleDefs1 [0] []).2⟩
      = (10 * (PI / 180)) ^ 2 := by
  constructor
  · intro angleOf dfs aIdxs coords
    simp only [IAC.compute_standard_error, IAC.full_improper_angles_coords, List.map_map]
    rfl
  · have hangle : IAC.kernelAngleAt angleOf20 angleDefs1 [] 0 = 20 * (PI / 180) := rfl
    have h4 : angleDefs1.anglesList4.getD 0 0 = (-10 : ℚ) * (PI / 180) := rfl
    have h5 : angleDefs1.anglesList5.getD 0 0 = (10 : ℚ) * (PI / 180) := rfl
    simp only [IAC.compute_standard_error, IAC.full_improper_angles_coords, List.map_map,
      List.map_cons, List.map_nil, Function.comp, List.sum_cons, List.sum_nil, hangle, h4, h5]
    norm_num [IAC.reducedDeviation, PI]

/-! ## C7: amputation acceptance and rejection -/

theorem getElem?_listWrite_const [Inhabited α] (l : List α) (idxs : List ℕ) (c : α)
    {p : ℕ} (hp : p ∈ idxs) (hlen : p < l.length) :
    (listWrite l idxs (idxs.map (fun _ => c)))[p]? = some c := by
  induction idxs generalizing l with
  | nil => cases hp
  | cons i is ih =>
    rw [List.map_cons, listWrite_cons]
    by_cases hpis : p ∈ is
    · exact ih (l.set i c) hpis (by rw [List.length_set]; exact hlen)
    · have hpi : p = i := by
        rcases List.mem_cons.mp hp with h | h
        · exact h
        · exact absurd h hpis
      subst hpi
      rw [getElem?_listWrite_of_not_mem _ _ _ hpis]
      exact List.getElem?_set_self hlen

/-- C7: `accept_amputation` zeroes the committed angle and reduced-deviation
entries of every angle definition involving the amputated atom, leaves every
other entry untouched, and (when any definition is involved) recomputes the
committed standard error from the zeroed data - so a collected atom
contributes zero to the standard error; `reject_amputation` changes no
committed state at all. -/
theorem C7_amputation_effects (dfs : IAC.Defs) (r : IAC.Run) (i : ℕ) :
    (∀ k, k ∈ IAC.amputatedAngleIndexes dfs i → k < r.data.angles.length →
      ((IAC.accept_amputation dfs r i).data.angles)[k]? = some 0)
    ∧ (∀ k, k ∈ IAC.amputatedAngleIndexes dfs i → k < r.data.reducedAngles.length →
      ((IAC.accept_amputation dfs r i).data.reducedAngles)[k]? = some 0)
    ∧ (∀ k, k ∉ IAC.amputatedAngleIndexes dfs i →
      ((IAC.accept_amputation dfs r i).data.angles)[k]? = (r.data.angles)[k]?
        ∧ ((IAC.accept_amputation dfs r i).data.reducedAngles)[k]?
          = (r.data.reducedAngles)[k]?)
    ∧ (IAC.amputatedAngleIndexes dfs i ≠ [] →
      (IAC.accept_amputation dfs r i).standardError
        = IAC.compute_standard_error (IAC.accept_amputation dfs r i).data)
    ∧ IAC.reject_amputation r i = r := by
  by_cases hAI : (IAC.amputatedAngleIndexes dfs i).isEmpty
  · have hnil : IAC.amputatedAngleIndexes dfs i = [] := List.isEmpty_iff.mp hAI
    refine ⟨?_, ?_, ?_, ?_, rfl⟩
    · intro k hk
      rw [hnil] at hk
      cases hk
    · intro k hk
      rw [hnil] at hk
      cases hk
    · intro k _
      constructor <;> simp [IAC.accept_amputation, hAI]
    · intro hne
      exact absurd hnil hne
  · have hangles : (IAC.accept_amputation dfs r i).data.angles
        = listWrite r.data.angles (IAC.amputatedAngleIndexes dfs i)
            ((IAC.amputatedAngleIndexes dfs i).map (fun _ => (0 : ℚ))) := by
      simp [IAC.accept_amputation, hAI]
    have hreduced : (IAC.accept_amputation dfs r i).data.reducedAngles
        = listWrite r.data.reducedAngles (IAC.amputatedAngleIndexes dfs i)
            ((IAC.amputatedAngleIndexes dfs i).map (fun _ => (0 : ℚ))) := by
      simp [IAC.accept_amputation, hAI]
    refine ⟨?_, ?_, ?_, ?_, rfl⟩
    · intro k hk hklen
      rw [hangles]
      exact getElem?_listWrite_const _ _ _ hk hklen
    · intro k hk hklen
      rw [hreduced]
      exact getElem?_listWrite_const _ _ _ hk hklen
    · intro k hk
      rw [hangles, hreduced]
      exact ⟨getElem?_listWrite_of_not_mem _ _ _ hk, getElem?_listWrite_of_not_mem _ _ _ hk⟩
    · intro _
      simp [IAC.accept_amputation, hAI]

/-- A concrete committed record for the amputation witness. -/
def angleRunEx : IAC.Run := ⟨⟨[5], [7]⟩, 49, none, none, none, none, none, none⟩

/-- Witness for C7 at a concrete state: amputating atom 0 of the one-angle
definition zeroes its reduced entry, recomputes the standard error from the
zeroed data, and the rejection is the identity. -/
theorem C7_amputation_effects_witness :
    ((IAC.accept_amputation angleDefs1 angleRunEx 0).data.reducedAngles)[0]? = some 0
      ∧ (IAC.accept_amputation angleDefs1 angleRunEx 0).standardError
        = IAC.compute_standard_error (IAC.accept_amputation angleDefs1 angleRunEx 0).data
      ∧ IAC.reject_amputation angleRunEx 0 = angleRunEx :=
  ⟨(C7_amputation_effects angleDefs1 angleRunEx 0).2.1 0 (by decide) (by decide),
   (C7_amputation_effects angleDefs1 angleRunEx 0).2.2.2.1 (by decide),
   (C7_amputation_effects angleDefs1 angleRunEx 0).2.2.2.2⟩

end Fullrmc

/-! ## C8: validation of raw definition specs -/

namespace Fullrmc

/-- C8 (code evaluation at the failing input): a coordination definition
whose core selector is the documented dictionary form `{'element': 'A'}` over
an existing element is rejected with the `NameError` raised by the misspelled
`isnstance`, while the same definition with a plain string selector compiles;
the angle constraint's bound checks behave as claimed at the boundary. -/
theorem C8_dict_selector_raises_name_error :
    (ACNC.set_coordination_number_definition (some engA)
        ACNC.initialize_constraint_data (some [dictCN])).2 = some Err.nameError
      ∧ (ACNC.set_coordination_number_definition (some engA)
          ACNC.initialize_constraint_data (some [goodCN])).2 = none
      ∧ ACNC.resolveSelector engA (.attr "element" "A") = .error Err.nameError
      ∧ (IAC.add_angle eng5 IAC.emptyDefs ⟨0, 1, 2, 3, -91, 10⟩).2
        = some Err.invalidBounds
      ∧ (IAC.add_angle eng5 IAC.emptyDefs ⟨0, 1, 2, 3, 10, 10⟩).2
        = some Err.invalidBounds
      ∧ (IAC.add_angle eng5 IAC.emptyDefs ⟨0, 1, 2, 5, -10, 10⟩).2
        = some Err.invalidSelector := by
  refine ⟨rfl, rfl, rfl, ?_, ?_, rfl⟩ <;> decide

end Fullrmc

/-! ## C9: redefinition of an existing angle -/

namespace Fullrmc

/-- Two angle definitions sharing improper atom 4 and plane atoms O=0, X=2
(differing only in Y), compiled in order. -/
def dupAngleDefs : IAC.Defs :=
  (IAC.addAngleLoop eng5 IAC.emptyDefs [⟨4, 0, 2, 3, -10, 10⟩, ⟨4, 0, 2, 1, -10, 10⟩]).1

/-- C9 counterexample: re-adding the second stored angle `(4,0,2,1)` with the
very same four atoms in the same roles (the identity, a role-preserving
permutation) does not overwrite it - the first-occurrence `.index` lookups
disagree (0,0,1), so the angle is appended and the number of stored
definitions grows from 2 to 3. -/
theorem C9_counterexample_duplicate_appended :
    dupAngleDefs.anglesList0 = [4, 4]
      ∧ dupAngleDefs.anglesList1 = [0, 0]
      ∧ dupAngleDefs.anglesList2 = [2, 2]
      ∧ dupAngleDefs.anglesList3 = [3, 1]
      ∧ (IAC.add_angle eng5 dupAngleDefs ⟨4, 0, 2, 1, -5, 5⟩).2 = none
      ∧ (IAC.add_angle eng5 dupAngleDefs ⟨4, 0, 2, 1, -5, 5⟩).1.anglesList0.length = 3 := by
  refine ⟨?_, ?_, ?_, ?_, ?_, ?_⟩ <;> decide

theorem sort3_comm_last (a b c : ℕ) : IAC.sort3 a b c = IAC.sort3 a c b := by
  unfold IAC.sort3
  exact @List.eq_of_perm_of_sorted ℕ (· ≤ ·) _ _ _
    ((List.perm_insertionSort _ _).trans
      (((List.Perm.swap c b [])).cons a |>.trans (List.perm_insertionSort _ _).symm))
    (List.sorted_insertionSort _ _) (List.sorted_insertionSort _ _)

/-- C9 (amended): when the improper atom has exactly one stored angle
definition, re-adding an angle over the same four atoms with the plane atoms
in a role-preserving permutation (identity or X/Y exchange) is not an error:
the matched entry's atoms and bounds are overwritten in place with the new
values and the stored definitions do not grow.  (With several angles stored
on the same improper atom the first-occurrence position lookups can disagree
and the angle is appended instead, as the counterexample shows.) -/
theorem C9_amended_single_definition_overwrite (eng : Engine) (dfs : IAC.Defs)
    (i o x y : ℕ) (lw up : ℚ) (p o₀ x₀ y₀ : ℕ) (om : List ℕ)
    (hiN : i < eng.numberOfAtoms) (hoN : o < eng.numberOfAtoms)
    (hxN : x < eng.numberOfAtoms) (hyN : y < eng.numberOfAtoms)
    (hio : i ≠ o) (hix : i ≠ x) (hiy : i ≠ y)
    (hox : o ≠ x) (hoy : o ≠ y) (hxy : x ≠ y)
    (hlw : -90 ≤ lw) (hlu : lw < up) (hup : up ≤ 90)
    (hentry : IAC.entryOf dfs.angles i = ⟨[o₀], [x₀], [y₀], [p], om⟩)
    (hx0y0 : x₀ ≠ y₀)
    (hperm : (o = o₀ ∧ x = x₀ ∧ y = y₀) ∨ (o = o₀ ∧ x = y₀ ∧ y = x₀))
    (hL0 : dfs.anglesList0.getD p 0 = i)
    (htriple : IAC.sort3 o₀ x₀ y₀
      = IAC.sort3 (dfs.anglesList1.getD p 0) (dfs.anglesList2.getD p 0)
          (dfs.anglesList3.getD p 0)) :
    (IAC.add_angle eng dfs ⟨(i : ℤ), (o : ℤ), (x : ℤ), (y : ℤ), lw, up⟩).2 = none
      ∧ (IAC.add_angle eng dfs ⟨(i : ℤ), (o : ℤ), (x : ℤ), (y : ℤ), lw, up⟩).1.anglesList0
        = dfs.anglesList0
      ∧ (IAC.add_angle eng dfs ⟨(i : ℤ), (o : ℤ), (x : ℤ), (y : ℤ), lw, up⟩).1.anglesList1
        = dfs.anglesList1.set p o
      ∧ (IAC.add_angle eng dfs ⟨(i : ℤ), (o : ℤ), (x : ℤ), (y : ℤ), lw, up⟩).1.anglesList2
        = dfs.anglesList2.set p x
      ∧ (IAC.add_angle eng dfs ⟨(i : ℤ), (o : ℤ), (x : ℤ), (y : ℤ), lw, up⟩).1.anglesList3
        = dfs.anglesList3.set p y
      ∧ (IAC.add_angle eng dfs ⟨(i : ℤ), (o : ℤ), (x : ℤ), (y : ℤ), lw, up⟩).1.anglesList4
        = dfs.anglesList4.set p (lw * (PI / 180))
      ∧ (IAC.add_angle eng dfs ⟨(i : ℤ), (o : ℤ), (x : ℤ), (y : ℤ), lw, up⟩).1.anglesList5
        = dfs.anglesList5.set p (up * (PI / 180)) := by
  have hval : IAC.validateAngle eng ⟨(i : ℤ), (o : ℤ), (x : ℤ), (y : ℤ), lw, up⟩ = none := by
    unfold IAC.validateAngle
    rw [if_neg (not_not_intro (Int.ofNat_nonneg i)),
      if_neg (not_not_intro (show ((i : ℤ)) < ((eng.numberOfAtoms : ℤ)) by
        exact_mod_cast hiN)),
      if_neg (not_not_intro (Int.ofNat_nonneg o)),
      if_neg (not_not_intro (show ((o : ℤ)) < ((eng.numberOfAtoms : ℤ)) by
        exact_mod_cast hoN)),
      if_neg (not_not_intro (Int.ofNat_nonneg x)),
      if_neg (not_not_intro (show ((x : ℤ)) < ((eng.numberOfAtoms : ℤ)) by
        exact_mod_cast hxN)),
      if_neg (not_not_intro (Int.ofNat_nonneg y)),
      if_neg (not_not_intro (show ((y : ℤ)) < ((eng.numberOfAtoms : ℤ)) by
        exact_mod_cast hyN)),
      if_neg (show ¬ ((i : ℤ) = (o : ℤ)) from fun h => hio (by exact_mod_cast h)),
      if_neg (show ¬ ((i : ℤ) = (x : ℤ)) from fun h => hix (by exact_mod_cast h)),
      if_neg (show ¬ ((i : ℤ) = (y : ℤ)) from fun h => hiy (by exact_mod_cast h)),
      if_neg (show ¬ ((o : ℤ) = (x : ℤ)) from fun h => hox (by exact_mod_cast h)),
      if_neg (show ¬ ((o : ℤ) = (y : ℤ)) from fun h => hoy (by exact_mod_cast h)),
      if_neg (show ¬ ((x : ℤ) = (y : ℤ)) from fun h => hxy (by exact_mod_cast h)),
      if_neg (not_not_intro hlw), if_neg (not_not_intro hlu), if_neg (not_not_intro hup)]
  have hred : IAC.add_angle eng dfs ⟨(i : ℤ), (o : ℤ), (x : ℤ), (y : ℤ), lw, up⟩
      = IAC.addAngleBody dfs i o x y (lw * (PI / 180)) (up * (PI / 180)) := by
    unfold IAC.add_angle
    rw [hval]
    rw [Int.toNat_ofNat, Int.toNat_ofNat, Int.toNat_ofNat, Int.toNat_ofNat]
  have hmp : IAC.matchPositions ⟨[o₀], [x₀], [y₀], [p], om⟩ o x y = some (0, 0, 0) := by
    rcases hperm with ⟨ho, hx, hy⟩ | ⟨ho, hx, hy⟩
    · subst ho; subst hx; subst hy
      simp [IAC.matchPositions, List.indexOf_cons_self]
    · subst ho; subst hx; subst hy
      simp [IAC.matchPositions, List.indexOf_cons_self, hx0y0, Ne.symm hx0y0]
  have hsp : IAC.setPosOf ⟨[o₀], [x₀], [y₀], [p], om⟩ o x y = some p := by
    unfold IAC.setPosOf
    rw [hmp]
    simp
  have htriple' : IAC.sort3 o x y
      = IAC.sort3 (dfs.anglesList1.getD p 0) (dfs.anglesList2.getD p 0)
          (dfs.anglesList3.getD p 0) := by
    rcases hperm with ⟨ho, hx, hy⟩ | ⟨ho, hx, hy⟩
    · subst ho; subst hx; subst hy
      exact htriple
    · subst ho; subst hx; subst hy
      rw [sort3_comm_last]
      exact htriple
  rw [hred]
  unfold IAC.addAngleBody
  simp only [hentry, hsp]
  rw [if_neg (not_not_intro hL0), if_neg (not_not_intro htriple')]
  exact ⟨rfl, rfl, rfl, rfl, rfl, rfl, rfl⟩

/-- Witness for C9's amended statement: one stored angle `(0,1,2,3)`; re-adding
it with X and Y exchanged and new bounds overwrites the stored entry without
growing the list. -/
theorem C9_amended_single_definition_overwrite_witness :
    (IAC.add_angle eng4 angleDefs1 ⟨0, 1, 3, 2, -5, 5⟩).2 = none
      ∧ (IAC.add_angle eng4 angleDefs1 ⟨0, 1, 3, 2, -5, 5⟩).1.anglesList0
        = angleDefs1.anglesList0
      ∧ (IAC.add_angle eng4 angleDefs1 ⟨0, 1, 3, 2, -5, 5⟩).1.anglesList3
        = angleDefs1.anglesList3.set 0 2 := by
  have h := C9_amended_single_definition_overwrite eng4 angleDefs1 0 1 3 2 (-5) 5
    0 1 2 3 [] (by decide) (by decide) (by decide) (by decide)
    (by decide) (by decide) (by decide) (by decide) (by decide) (by decide)
    (by decide) (by decide) (by decide)
    (by decide) (by decide) (Or.inr ⟨rfl, rfl, rfl⟩) (by decide) (by decide)
  exact ⟨h.1, h.2.1, h.2.2.2.2.1⟩

end Fullrmc

/-! ## C10: the membership index is the inverse of the index sets -/

namespace Fullrmc

namespace ACNC

theorem length_appendToRow (rows : List (List ℕ)) (a d : ℕ) :
    (appendToRow rows a d).length = rows.length :=
  List.length_set rows a _

theorem length_foldl_appendToRow (idxs : List ℕ) (rows : List (List ℕ)) (d0 : ℕ) :
    (idxs.foldl (fun r x => appendToRow r x d0) rows).length = rows.length := by
  induction idxs generalizing rows with
  | nil => rfl
  | cons i is ih => rw [List.foldl_cons, ih, length_appendToRow]

theorem length_buildRows (idxsList : List (List ℕ)) (rows : List (List ℕ)) (d0 : ℕ) :
    (buildRows rows idxsList d0).length = rows.length := by
  induction idxsList generalizing rows d0 with
  | nil => rfl
  | cons idxs rest ih =>
    show (buildRows (idxs.foldl (fun r x => appendToRow r x d0) rows) rest (d0 + 1)).length
      = rows.length
    rw [ih, length_foldl_appendToRow]

theorem getD_appendToRow_self (rows : List (List ℕ)) (a d : ℕ) (ha : a < rows.length) :
    (appendToRow rows a d).getD a [] = rows.getD a [] ++ [d] := by
  unfold appendToRow
  rw [List.getD_eq_getElem?_getD, List.getElem?_set_self ha, Option.getD_some]

theorem getD_appendToRow_ne (rows : List (List ℕ)) (a d b : ℕ) (hab : a ≠ b) :
    (appendToRow rows a d).getD b [] = rows.getD b [] := by
  unfold appendToRow
  rw [List.getD_eq_getElem?_getD, List.getElem?_set_ne hab, ← List.getD_eq_getElem?_getD]

theorem mem_getD_foldl_appendToRow (idxs : List ℕ) (rows : List (List ℕ)) (d0 a e : ℕ)
    (ha : a < rows.length) :
    e ∈ (idxs.foldl (fun r x => appendToRow r x d0) rows).getD a []
      ↔ e ∈ rows.getD a [] ∨ (e = d0 ∧ a ∈ idxs) := by
  induction idxs generalizing rows with
  | nil => simp
  | cons i is ih =>
    rw [List.foldl_cons, ih (appendToRow rows i d0) (by rw [length_appendToRow]; exact ha)]
    by_cases hai : a = i
    · subst hai
      rw [getD_appendToRow_self rows a d0 ha]
      simp only [List.mem_append, List.mem_singleton, List.mem_cons]
      tauto
    · rw [getD_appendToRow_ne rows i d0 a (fun h => hai h.symm)]
      simp only [List.mem_cons]
      constructor
      · rintro (h | ⟨he, hmem⟩)
        · exact Or.inl h
        · exact Or.inr ⟨he, Or.inr hmem⟩
      · rintro (h | ⟨he, hai' | hmem⟩)
        · exact Or.inl h
        · exact absurd hai' hai
        · exact Or.inr ⟨he, hmem⟩

theorem mem_getD_buildRows (idxsList : List (List ℕ)) (rows : List (List ℕ)) (d0 a e : ℕ)
    (ha : a < rows.length) :
    e ∈ (buildRows rows idxsList d0).getD a []
      ↔ e ∈ rows.getD a []
        ∨ ∃ j, j < idxsList.length ∧ e = d0 + j ∧ a ∈ idxsList.getD j [] := by
  induction idxsList generalizing rows d0 with
  | nil => simp [buildRows]
  | cons idxs rest ih =>
    show e ∈ (buildRows (idxs.foldl (fun r x => appendToRow r x d0) rows) rest (d0 + 1)).getD a []
      ↔ _
    rw [ih _ (d0 + 1) (by rw [length_foldl_appendToRow]; exact ha),
      mem_getD_foldl_appendToRow idxs rows d0 a e ha]
    constructor
    · rintro ((h | ⟨he, hmem⟩) | ⟨j, hj, he, hmem⟩)
      · exact Or.inl h
      · exact Or.inr ⟨0, by simp, by omega, by simpa using hmem⟩
      · refine Or.inr ⟨j + 1, by simpa using hj, by omega, ?_⟩
        simpa using hmem
    · rintro (h | ⟨j, hj, he, hmem⟩)
      · exact Or.inl (Or.inl h)
      · cases j with
        | zero => exact Or.inl (Or.inr ⟨by omega, by simpa using hmem⟩)
        | succ j =>
          refine Or.inr ⟨j, by simpa using hj, by omega, ?_⟩
          simpa using hmem

/-- The success shape of `set_coordination_number_definition`: both membership
tables are built from fresh empty rows for every atom of the system over the
published index sets. -/
theorem set_coordination_number_definition_success (eng : Engine) (st st' : State)
    (cnd : Option (List RawCNDef))
    (h : set_coordination_number_definition (some eng) st cnd = (st', none)) :
    st'.asCoreDefIdxs = buildRows (List.replicate eng.numberOfAtoms []) st'.coresIndexes 0
      ∧ st'.inShellDefIdxs
        = buildRows (List.replicate eng.numberOfAtoms []) st'.shellsIndexes 0 := by
  simp only [set_coordination_number_definition] at h
  rcases hp : parseLoop eng initialize_constraint_data (cnd.getD []) with ⟨st1, oe⟩
  rw [hp] at h
  cases oe with
  | some e => simp at h
  | none =>
    injection h with h1 h2
    subst h1
    exact ⟨rfl, rfl⟩

end ACNC

end Fullrmc

namespace Fullrmc

namespace IAC

/-- The inverse-membership invariant of the angle constraint (spec section 3):
position `k` is in atom `a`'s improper map exactly when `a` is the improper
atom stored at position `k`, and in `a`'s other map exactly when `a` is one of
the three plane atoms stored at position `k`. -/
def membershipInverse (dfs : Defs) : Prop :=
  ∀ a k : ℕ,
    (k ∈ (entryOf dfs.angles a).improperMap ↔ dfs.anglesList0[k]? = some a)
    ∧ (k ∈ (entryOf dfs.angles a).otherMap
        ↔ (dfs.anglesList1[k]? = some a ∨ dfs.anglesList2[k]? = some a
            ∨ dfs.anglesList3[k]? = some a))

/-- The four atom arrays of `__anglesList` stay parallel. -/
def parallelLengths (dfs : Defs) : Prop :=
  dfs.anglesList1.length = dfs.anglesList0.length
    ∧ dfs.anglesList2.length = dfs.anglesList0.length
    ∧ dfs.anglesList3.length = dfs.anglesList0.length

theorem membershipInverse_empty : membershipInverse emptyDefs := by
  intro a k
  constructor <;> simp [entryOf, emptyDefs, emptyEntry]

theorem parallelLengths_empty : parallelLengths emptyDefs := ⟨rfl, rfl, rfl⟩

theorem entryOf_updEntry (f : ℕ → Option AngleEntry) (k : ℕ) (e : AngleEntry) (b : ℕ) :
    entryOf (updEntry f k e) b = if b = k then e else entryOf f b := by
  unfold entryOf updEntry
  rw [Function.update_apply]
  split
  · rfl
  · rfl

theorem getElem?_append_singleton (l : List ℕ) (v : ℕ) (k b : ℕ) :
    ((l ++ [v])[k]? = some b) ↔ (l[k]? = some b ∨ (k = l.length ∧ b = v)) := by
  rcases Nat.lt_trichotomy k l.length with hk | hk | hk
  · rw [List.getElem?_append_left hk]
    constructor
    · exact Or.inl
    · rintro (h | ⟨hkl, _⟩)
      · exact h
      · omega
  · subst hk
    rw [List.getElem?_concat_length]
    have : l[l.length]? = none := List.getElem?_eq_none (Nat.le_refl _)
    rw [this]
    constructor
    · intro h
      exact Or.inr ⟨rfl, (Option.some_inj.mp h).symm⟩
    · rintro (h | ⟨_, hb⟩)
      · exact absurd h (by simp)
      · rw [hb]
  · have h1 : (l ++ [v])[k]? = none := by
      apply List.getElem?_eq_none
      rw [List.length_append, List.length_singleton]
      omega
    have h2 : l[k]? = none := List.getElem?_eq_none (by omega)
    rw [h1, h2]
    constructor
    · intro h
      exact absurd h (by simp)
    · rintro (h | ⟨hkl, _⟩)
      · exact absurd h (by simp)
      · omega

/-- The four-key dictionary update of `add_angle` read back at any atom, for
pairwise distinct keys. -/
theorem entryOf_updEntry_four (f : ℕ → Option AngleEntry) (i o x y : ℕ)
    (eI eO eX eY : AngleEntry) (b : ℕ)
    (hio : i ≠ o) (hix : i ≠ x) (hiy : i ≠ y) (hox : o ≠ x) (hoy : o ≠ y) (hxy : x ≠ y) :
    entryOf (updEntry (updEntry (updEntry (updEntry f i eI) o eO) x eX) y eY) b
      = if b = i then eI else if b = o then eO else if b = x then eX
        else if b = y then eY else entryOf f b := by
  rw [entryOf_updEntry, entryOf_updEntry, entryOf_updEntry, entryOf_updEntry]
  split_ifs <;> first | rfl | omega

end IAC

end Fullrmc

namespace Fullrmc

namespace IAC

theorem mem_sort3 (a b c d : ℕ) : a ∈ sort3 b c d ↔ (a = b ∨ a = c ∨ a = d) := by
  unfold sort3
  rw [(List.perm_insertionSort _ _).mem_iff]
  simp

theorem entryOf_overwriteResult (dfs : Defs) (i o x y : ℕ) (lw up : ℚ) (setPos : ℕ)
    (hio : i ≠ o) (hix : i ≠ x) (hiy : i ≠ y) (hox : o ≠ x) (hoy : o ≠ y) (hxy : x ≠ y)
    (b : ℕ) :
    entryOf (overwriteResult dfs i o x y lw up setPos).angles b = entryOf dfs.angles b := by
  show entryOf (updEntry (updEntry (updEntry (updEntry dfs.angles i
    (entryOf dfs.angles i)) o (entryOf dfs.angles o)) x (entryOf dfs.angles x)) y
    (entryOf dfs.angles y)) b = entryOf dfs.angles b
  rw [entryOf_updEntry_four dfs.angles i o x y _ _ _ _ b hio hix hiy hox hoy hxy]
  split_ifs with h1 h2 h3 h4
  · rw [h1]
  · rw [h2]
  · rw [h3]
  · rw [h4]
  · rfl

theorem overwriteResult_preserves (dfs : Defs) (i o x y : ℕ) (lw up : ℚ) (setPos : ℕ)
    (hm : membershipInverse dfs) (hl : parallelLengths dfs)
    (hio : i ≠ o) (hix : i ≠ x) (hiy : i ≠ y) (hox : o ≠ x) (hoy : o ≠ y) (hxy : x ≠ y)
    (htriple : sort3 o x y
      = sort3 (dfs.anglesList1.getD setPos 0) (dfs.anglesList2.getD setPos 0)
          (dfs.anglesList3.getD setPos 0)) :
    membershipInverse (overwriteResult dfs i o x y lw up setPos)
      ∧ parallelLengths (overwriteResult dfs i o x y lw up setPos) := by
  constructor
  · intro a k
    rw [entryOf_overwriteResult dfs i o x y lw up setPos hio hix hiy hox hoy hxy a]
    constructor
    · exact (hm a k).1
    · show k ∈ (entryOf dfs.angles a).otherMap
        ↔ ((dfs.anglesList1.set setPos o)[k]? = some a
            ∨ (dfs.anglesList2.set setPos x)[k]? = some a
            ∨ (dfs.anglesList3.set setPos y)[k]? = some a)
      rw [(hm a k).2]
      by_cases hks : setPos = k
      · subst hks
        by_cases hlen : setPos < dfs.anglesList1.length
        · obtain ⟨hl1, hl2, hl3⟩ := hl
          have hlen2 : setPos < dfs.anglesList2.length := by omega
          have hlen3 : setPos < dfs.anglesList3.length := by omega
          rw [List.getElem?_set_self hlen, List.getElem?_set_self hlen2,
            List.getElem?_set_self hlen3,
            List.getElem?_eq_getElem hlen, List.getElem?_eq_getElem hlen2,
            List.getElem?_eq_getElem hlen3]
          have hmem : a ∈ sort3 o x y ↔ a ∈ sort3 (dfs.anglesList1.getD setPos 0)
              (dfs.anglesList2.getD setPos 0) (dfs.anglesList3.getD setPos 0) := by
            rw [htriple]
          have hg1 : dfs.anglesList1.getD setPos 0 = dfs.anglesList1[setPos] := by
            rw [List.getD_eq_getElem?_getD, List.getElem?_eq_getElem hlen, Option.getD_some]
          have hg2 : dfs.anglesList2.getD setPos 0 = dfs.anglesList2[setPos] := by
            rw [List.getD_eq_getElem?_getD, List.getElem?_eq_getElem hlen2, Option.getD_some]
          have hg3 : dfs.anglesList3.getD setPos 0 = dfs.anglesList3[setPos] := by
            rw [List.getD_eq_getElem?_getD, List.getElem?_eq_getElem hlen3, Option.getD_some]
          rw [mem_sort3, mem_sort3, hg1, hg2, hg3] at hmem
          simp only [Option.some_inj]
          omega
        · obtain ⟨hl1, hl2, hl3⟩ := hl
          rw [List.set_eq_of_length_le (by omega), List.set_eq_of_length_le (by omega),
            List.set_eq_of_length_le (by omega)]
      · rw [List.getElem?_set_ne hks, List.getElem?_set_ne hks, List.getElem?_set_ne hks]
  · obtain ⟨hl1, hl2, hl3⟩ := hl
    refine ⟨?_, ?_, ?_⟩ <;>
      simp only [overwriteResult, List.length_set, hl1, hl2, hl3]

end IAC

end Fullrmc

namespace Fullrmc

namespace IAC

theorem appendResult_improperMap (dfs : Defs) (i o x y : ℕ) (lw up : ℚ)
    (hio : i ≠ o) (hix : i ≠ x) (hiy : i ≠ y) (hox : o ≠ x) (hoy : o ≠ y) (hxy : x ≠ y)
    (b : ℕ) :
    (entryOf (appendResult dfs i o x y lw up).angles b).improperMap
      = if b = i then (entryOf dfs.angles b).improperMap ++ [dfs.anglesList0.length]
        else (entryOf dfs.angles b).improperMap := by
  unfold appendResult
  dsimp only
  rw [entryOf_updEntry_four dfs.angles i o x y _ _ _ _ b hio hix hiy hox hoy hxy]
  split_ifs <;> first | (subst_vars; rfl) | (exfalso; omega)

theorem appendResult_otherMap (dfs : Defs) (i o x y : ℕ) (lw up : ℚ)
    (hio : i ≠ o) (hix : i ≠ x) (hiy : i ≠ y) (hox : o ≠ x) (hoy : o ≠ y) (hxy : x ≠ y)
    (b : ℕ) :
    (entryOf (appendResult dfs i o x y lw up).angles b).otherMap
      = if b = o ∨ b = x ∨ b = y then (entryOf dfs.angles b).otherMap ++ [dfs.anglesList0.length]
        else (entryOf dfs.angles b).otherMap := by
  unfold appendResult
  dsimp only
  rw [entryOf_updEntry_four dfs.angles i o x y _ _ _ _ b hio hix hiy hox hoy hxy]
  split_ifs <;> first | (subst_vars; rfl) | (exfalso; omega)

theorem appendResult_preserves (dfs : Defs) (i o x y : ℕ) (lw up : ℚ)
    (hm : membershipInverse dfs) (hl : parallelLengths dfs)
    (hio : i ≠ o) (hix : i ≠ x) (hiy : i ≠ y) (hox : o ≠ x) (hoy : o ≠ y) (hxy : x ≠ y) :
    membershipInverse (appendResult dfs i o x y lw up)
      ∧ parallelLengths (appendResult dfs i o x y lw up) := by
  obtain ⟨hl1, hl2, hl3⟩ := hl
  constructor
  · intro a k
    constructor
    · show k ∈ (entryOf (appendResult dfs i o x y lw up).angles a).improperMap
        ↔ (dfs.anglesList0 ++ [i])[k]? = some a
      rw [appendResult_improperMap dfs i o x y lw up hio hix hiy hox hoy hxy a,
        getElem?_append_singleton]
      by_cases hai : a = i
      · rw [if_pos hai]
        simp only [List.mem_append, List.mem_singleton]
        rw [(hm a k).1]
        constructor
        · rintro (h | h)
          · exact Or.inl h
          · exact Or.inr ⟨h, hai⟩
        · rintro (h | ⟨hk, _⟩)
          · exact Or.inl h
          · exact Or.inr hk
      · rw [if_neg hai, (hm a k).1]
        constructor
        · exact Or.inl
        · rintro (h | ⟨_, hae⟩)
          · exact h
          · exact absurd hae hai
    · show k ∈ (entryOf (appendResult dfs i o x y lw up).angles a).otherMap
        ↔ ((dfs.anglesList1 ++ [o])[k]? = some a ∨ (dfs.anglesList2 ++ [x])[k]? = some a
            ∨ (dfs.anglesList3 ++ [y])[k]? = some a)
      rw [appendResult_otherMap dfs i o x y lw up hio hix hiy hox hoy hxy a,
        getElem?_append_singleton, getElem?_append_singleton, getElem?_append_singleton,
        hl1, hl2, hl3]
      by_cases hmem3 : a = o ∨ a = x ∨ a = y
      · rw [if_pos hmem3]
        simp only [List.mem_append, List.mem_singleton]
        rw [(hm a k).2]
        tauto
      · rw [if_neg hmem3]
        rw [(hm a k).2]
        tauto
  · refine ⟨?_, ?_, ?_⟩ <;>
      simp [appendResult, hl1, hl2, hl3]

end IAC

end Fullrmc

namespace Fullrmc

namespace IAC

/-- A raw angle that passes validation has in-range, pairwise distinct atom
indexes and ordered bounds. -/
theorem validateAngle_eq_none (eng : Engine) (a : RawAngle)
    (h : validateAngle eng a = none) :
    0 ≤ a.improperIdx ∧ a.improperIdx < (eng.numberOfAtoms : ℤ)
      ∧ 0 ≤ a.oIdx ∧ a.oIdx < (eng.numberOfAtoms : ℤ)
      ∧ 0 ≤ a.xIdx ∧ a.xIdx < (eng.numberOfAtoms : ℤ)
      ∧ 0 ≤ a.yIdx ∧ a.yIdx < (eng.numberOfAtoms : ℤ)
      ∧ a.improperIdx ≠ a.oIdx ∧ a.improperIdx ≠ a.xIdx ∧ a.improperIdx ≠ a.yIdx
      ∧ a.oIdx ≠ a.xIdx ∧ a.oIdx ≠ a.yIdx ∧ a.xIdx ≠ a.yIdx
      ∧ -90 ≤ a.lower ∧ a.lower < a.upper ∧ a.upper ≤ 90 := by
  have v1 : 0 ≤ a.improperIdx := by
    by_contra hc
    have h2 := h
    unfold validateAngle at h2
    rw [if_pos hc] at h2
    exact Option.noConfusion h2
  have v2 : a.improperIdx < (eng.numberOfAtoms : ℤ) := by
    by_contra hc
    have h2 := h
    unfold validateAngle at h2
    rw [if_neg (not_not_intro v1),
      if_pos hc] at h2
    exact Option.noConfusion h2
  have v3 : 0 ≤ a.oIdx := by
    by_contra hc
    have h2 := h
    unfold validateAngle at h2
    rw [if_neg (not_not_intro v1),
      if_neg (not_not_intro v2),
      if_pos hc] at h2
    exact Option.noConfusion h2
  have v4 : a.oIdx < (eng.numberOfAtoms : ℤ) := by
    by_contra hc
    have h2 := h
    unfold validateAngle at h2
    rw [if_neg (not_not_intro v1),
      if_neg (not_not_intro v2),
      if_neg (not_not_intro v3),
      if_pos hc] at h2
    exact Option.noConfusion h2
  have v5 : 0 ≤ a.xIdx := by
    by_contra hc
    have h2 := h
    unfold validateAngle at h2
    rw [if_neg (not_not_intro v1),
      if_neg (not_not_intro v2),
      if_neg (not_not_intro v3),
      if_neg (not_not_intro v4),
      if_pos hc] at h2
    exact Option.noConfusion h2
  have v6 : a.xIdx < (eng.numberOfAtoms : ℤ) := by
    by_contra hc
    have h2 := h
    unfold validateAngle at h2
    rw [if_neg (not_not_intro v1),
      if_neg (not_not_intro v2),
      if_neg (not_not_intro v3),
      if_neg (not_not_intro v4),
      if_neg (not_not_intro v5),
      if_pos hc] at h2
    exact Option.noConfusion h2
  have v7 : 0 ≤ a.yIdx := by
    by_contra hc
    have h2 := h
    unfold validateAngle at h2
    rw [if_neg (not_not_intro v1),
      if_neg (not_not_intro v2),
      if_neg (not_not_intro v3),
      if_neg (not_not_intro v4),
      if_neg (not_not_intro v5),
      if_neg (not_not_intro v6),
      if_pos hc] at h2
    exact Option.noConfusion h2
  have v8 : a.yIdx < (eng.numberOfAtoms : ℤ) := by
    by_contra hc
    have h2 := h
    unfold validateAngle at h2
    rw [if_neg (not_not_intro v1),
      if_neg (not_not_intro v2),
      if_neg (not_not_intro v3),
      if_neg (not_not_intro v4),
      if_neg (not_not_intro v5),
      if_neg (not_not_intro v6),
      if_neg (not_not_intro v7),
      if_pos hc] at h2
    exact Option.noConfusion h2
  have v9 : ¬ (a.improperIdx = a.oIdx) := by
    by_contra hc
    have h2 := h
    unfold validateAngle at h2
    rw [if_neg (not_not_intro v1),
      if_neg (not_not_intro v2),
      if_neg (not_not_intro v3),
      if_neg (not_not_intro v4),
      if_neg (not_not_intro v5),
      if_neg (not_not_intro v6),
      if_neg (not_not_intro v7),
      if_neg (not_not_intro v8),
      if_pos hc] at h2
    exact Option.noConfusion h2
  have v10 : ¬ (a.improperIdx = a.xIdx) := by
    by_contra hc
    have h2 := h
    unfold validateAngle at h2
    rw [if_neg (not_not_intro v1),
      if_neg (not_not_intro v2),
      if_neg (not_not_intro v3),
      if_neg (not_not_intro v4),
      if_neg (not_not_intro v5),
      if_neg (not_not_intro v6),
      if_neg (not_not_intro v7),
      if_neg (not_not_intro v8),
      if_neg v9,
      if_pos hc] at h2
    exact Option.noConfusion h2
  have v11 : ¬ (a.improperIdx = a.yIdx) := by
    by_contra hc
    have h2 := h
    unfold validateAngle at h2
    rw [if_neg (not_not_intro v1),
      if_neg (not_not_intro v2),
      if_neg (not_not_intro v3),
      if_neg (not_not_intro v4),
      if_neg (not_not_intro v5),
      if_neg (not_not_intro v6),
      if_neg (not_not_intro v7),
      if_neg (not_not_intro v8),
      if_neg v9,
      if_neg v10,
      if_pos hc] at h2
    exact Option.noConfusion h2
  have v12 : ¬ (a.oIdx = a.xIdx) := by
    by_contra hc
    have h2 := h
    unfold validateAngle at h2
    rw [if_neg (not_not_intro v1),
      if_neg (not_not_intro v2),
      if_neg (not_not_intro v3),
      if_neg (not_not_intro v4),
      if_neg (not_not_intro v5),
      if_neg (not_not_intro v6),
      if_neg (not_not_intro v7),
      if_neg (not_not_intro v8),
      if_neg v9,
      if_neg v10,
      if_neg v11,
      if_pos hc] at h2
    exact Option.noConfusion h2
  have v13 : ¬ (a.oIdx = a.yIdx) := by
    by_contra hc
    have h2 := h
    unfold validateAngle at h2
    rw [if_neg (not_not_intro v1),
      if_neg (not_not_intro v2),
      if_neg (not_not_intro v3),
      if_neg (not_not_intro v4),
      if_neg (not_not_intro v5),
      if_neg (not_not_intro v6),
      if_neg (not_not_intro v7),
      if_neg (not_not_intro v8),
      if_neg v9,
      if_neg v10,
      if_neg v11,
      if_neg v12,
      if_pos hc] at h2
    exact Option.noConfusion h2
  have v14 : ¬ (a.xIdx = a.yIdx) := by
    by_contra hc
    have h2 := h
    unfold validateAngle at h2
    rw [if_neg (not_not_intro v1),
      if_neg (not_not_intro v2),
      if_neg (not_not_intro v3),
      if_neg (not_not_intro v4),
      if_neg (not_not_intro v5),
      if_neg (not_not_intro v6),
      if_neg (not_not_intro v7),
      if_neg (not_not_intro v8),
      if_neg v9,
      if_neg v10,
      if_neg v11,
      if_neg v12,
      if_neg v13,
      if_pos hc] at h2
    exact Option.noConfusion h2
  have v15 : -90 ≤ a.lower := by
    by_contra hc
    have h2 := h
    unfold validateAngle at h2
    rw [if_neg (not_not_intro v1),
      if_neg (not_not_intro v2),
      if_neg (not_not_intro v3),
      if_neg (not_not_intro v4),
      if_neg (not_not_intro v5),
      if_neg (not_not_intro v6),
      if_neg (not_not_intro v7),
      if_neg (not_not_intro v8),
      if_neg v9,
      if_neg v10,
      if_neg v11,
      if_neg v12,
      if_neg v13,
      if_neg v14,
      if_pos hc] at h2
    exact Option.noConfusion h2
  have v16 : a.lower < a.upper := by
    by_contra hc
    have h2 := h
    unfold validateAngle at h2
    rw [if_neg (not_not_intro v1),
      if_neg (not_not_intro v2),
      if_neg (not_not_intro v3),
      if_neg (not_not_intro v4),
      if_neg (not_not_intro v5),
      if_neg (not_not_intro v6),
      if_neg (not_not_intro v7),
      if_neg (not_not_intro v8),
      if_neg v9,
      if_neg v10,
      if_neg v11,
      if_neg v12,
      if_neg v13,
      if_neg v14,
      if_neg (not_not_intro v15),
      if_pos hc] at h2
    exact Option.noConfusion h2
  have v17 : a.upper ≤ 90 := by
    by_contra hc
    have h2 := h
    unfold validateAngle at h2
    rw [if_neg (not_not_intro v1),
      if_neg (not_not_intro v2),
      if_neg (not_not_intro v3),
      if_neg (not_not_intro v4),
      if_neg (not_not_intro v5),
      if_neg (not_not_intro v6),
      if_neg (not_not_intro v7),
      if_neg (not_not_intro v8),
      if_neg v9,
      if_neg v10,
      if_neg v11,
      if_neg v12,
      if_neg v13,
      if_neg v14,
      if_neg (not_not_intro v15),
      if_neg (not_not_intro v16),
      if_pos hc] at h2
    exact Option.noConfusion h2
  exact ⟨v1, v2, v3, v4, v5, v6, v7, v8, v9, v10, v11, v12, v13, v14, v15, v16, v17⟩

theorem add_angle_preserves (eng : Engine) (dfs dfs' : Defs) (a : RawAngle)
    (h : add_angle eng dfs a = (dfs', none))
    (hm : membershipInverse dfs) (hl : parallelLengths dfs) :
    membershipInverse dfs' ∧ parallelLengths dfs' := by
  unfold add_angle at h
  rcases hv : validateAngle eng a with _ | e
  swap
  · rw [hv] at h
    exact Option.noConfusion (congrArg Prod.snd h)
  rw [hv] at h
  obtain ⟨v1, v2, v3, v4, v5, v6, v7, v8, v9, v10, v11, v12, v13, v14, v15, v16, v17⟩ :=
    validateAngle_eq_none eng a hv
  have dio : a.improperIdx.toNat ≠ a.oIdx.toNat := by omega
  have dix : a.improperIdx.toNat ≠ a.xIdx.toNat := by omega
  have diy : a.improperIdx.toNat ≠ a.yIdx.toNat := by omega
  have dox : a.oIdx.toNat ≠ a.xIdx.toNat := by omega
  have doy : a.oIdx.toNat ≠ a.yIdx.toNat := by omega
  have dxy : a.xIdx.toNat ≠ a.yIdx.toNat := by omega
  unfold addAngleBody at h
  rcases hsp : setPosOf (entryOf dfs.angles a.improperIdx.toNat) a.oIdx.toNat a.xIdx.toNat
      a.yIdx.toNat with _ | setPos
  · rw [hsp] at h
    dsimp only at h
    injection h with hd _
    subst hd
    exact appendResult_preserves dfs _ _ _ _ _ _ hm hl dio dix diy dox doy dxy
  · rw [hsp] at h
    dsimp only at h
    by_cases g1 : ¬ (dfs.anglesList0.getD setPos 0 = a.improperIdx.toNat)
    · rw [if_pos g1] at h
      exact Option.noConfusion (congrArg Prod.snd h)
    · rw [if_neg g1] at h
      by_cases g2 : ¬ (sort3 a.oIdx.toNat a.xIdx.toNat a.yIdx.toNat
          = sort3 (dfs.anglesList1.getD setPos 0) (dfs.anglesList2.getD setPos 0)
              (dfs.anglesList3.getD setPos 0))
      · rw [if_pos g2] at h
        exact Option.noConfusion (congrArg Prod.snd h)
      · rw [if_neg g2] at h
        injection h with hd _
        subst hd
        exact overwriteResult_preserves dfs _ _ _ _ _ _ setPos hm hl dio dix diy dox doy dxy
          (not_not.mp g2)

theorem addAngleLoop_preserves (eng : Engine) (raws : List RawAngle) (dfs dfs' : Defs)
    (h : addAngleLoop eng dfs raws = (dfs', none))
    (hm : membershipInverse dfs) (hl : parallelLengths dfs) :
    membershipInverse dfs' ∧ parallelLengths dfs' := by
  induction raws generalizing dfs with
  | nil =>
    injection h with hd _
    subst hd
    exact ⟨hm, hl⟩
  | cons a rest ih =>
    unfold addAngleLoop at h
    rcases ha : add_angle eng dfs a with ⟨d1, oe⟩
    rw [ha] at h
    cases oe with
    | none =>
      obtain ⟨hm1, hl1⟩ := add_angle_preserves eng dfs d1 a ha hm hl
      exact ih d1 h hm1 hl1
    | some e => exact absurd (congrArg Prod.snd h) (by simp)

theorem entryOf_finalize (N : ℕ) (f : ℕ → Option AngleEntry) (b : ℕ) :
    entryOf (finalize N f) b = entryOf f b := by
  unfold entryOf finalize
  split
  · cases hfb : f b <;> simp [hfb]
  · rfl

/-- A successful `set_angles` establishes the inverse-membership invariant and
gives every atom of the system a dictionary record. -/
theorem set_angles_success (eng : Engine) (dfs dfs' : Defs) (raws : List RawAngle)
    (h : set_angles eng dfs raws = (dfs', none)) :
    membershipInverse dfs' ∧ (∀ b, b < eng.numberOfAtoms → (dfs'.angles b).isSome) := by
  unfold set_angles at h
  rcases hL : addAngleLoop eng emptyDefs raws with ⟨d1, oe⟩
  rw [hL] at h
  cases oe with
  | some e => exact absurd (congrArg Prod.snd h) (by simp)
  | none =>
    injection h with hd _
    subst hd
    obtain ⟨hm1, _⟩ := addAngleLoop_preserves eng raws emptyDefs d1 hL
      membershipInverse_empty parallelLengths_empty
    constructor
    · intro a k
      refine ⟨?_, ?_⟩
      · show k ∈ (entryOf (finalize eng.numberOfAtoms d1.angles) a).improperMap
          ↔ d1.anglesList0[k]? = some a
        rw [entryOf_finalize]
        exact (hm1 a k).1
      · show k ∈ (entryOf (finalize eng.numberOfAtoms d1.angles) a).otherMap
          ↔ (d1.anglesList1[k]? = some a ∨ d1.anglesList2[k]? = some a
              ∨ d1.anglesList3[k]? = some a)
        rw [entryOf_finalize]
        exact (hm1 a k).2
    · intro b hb
      show (finalize eng.numberOfAtoms d1.angles b).isSome
      unfold finalize
      rw [if_pos hb]
      rfl

end IAC

end Fullrmc

namespace Fullrmc

theorem getD_replicate_nil (N a : ℕ) :
    (List.replicate N ([] : List ℕ)).getD a [] = [] := by
  rw [List.getD_eq_getElem?_getD, List.getElem?_replicate]
  split <;> rfl

/-- C10: after every successful definition-setting call with an attached
engine the per-atom membership index is exactly the inverse of the published
index sets - for the coordination constraint, atom `a` has definition `d` in
its core (respectively shell) row exactly when `a` is in definition `d`'s
core (shell) index set, and both tables have one (possibly empty) row per
atom of the system; for the angle constraint, position `k` is in atom `a`'s
improper (other) map exactly when `a` is stored as the improper (a plane)
atom of angle `k`, and every atom of the system has a dictionary record. -/
theorem C10_membership_index_inverse :
    (∀ (eng : Engine) (st st' : ACNC.State) (cnd : Option (List ACNC.RawCNDef)),
      ACNC.set_coordination_number_definition (some eng) st cnd = (st', none) →
      st'.asCoreDefIdxs.length = eng.numberOfAtoms
        ∧ st'.inShellDefIdxs.length = eng.numberOfAtoms
        ∧ (∀ a, a < eng.numberOfAtoms → ∀ d,
            (d ∈ st'.asCoreDefIdxs.getD a []
              ↔ d < st'.coresIndexes.length ∧ a ∈ st'.coresIndexes.getD d [])
            ∧ (d ∈ st'.inShellDefIdxs.getD a []
              ↔ d < st'.shellsIndexes.length ∧ a ∈ st'.shellsIndexes.getD d [])))
    ∧ (∀ (eng : Engine) (dfs dfs' : IAC.Defs) (raws : List IAC.RawAngle),
      IAC.set_angles eng dfs raws = (dfs', none) →
      IAC.membershipInverse dfs' ∧ ∀ b, b < eng.numberOfAtoms → (dfs'.angles b).isSome) := by
  constructor
  · intro eng st st' cnd h
    obtain ⟨hcore, hshell⟩ :=
      ACNC.set_coordination_number_definition_success eng st st' cnd h
    have hlenc : st'.asCoreDefIdxs.length = eng.numberOfAtoms := by
      rw [hcore, ACNC.length_buildRows, List.length_replicate]
    have hlens : st'.inShellDefIdxs.length = eng.numberOfAtoms := by
      rw [hshell, ACNC.length_buildRows, List.length_replicate]
    refine ⟨hlenc, hlens, ?_⟩
    intro a ha d
    constructor
    · rw [hcore, ACNC.mem_getD_buildRows _ _ 0 a d (by rw [List.length_replicate]; exact ha),
        getD_replicate_nil]
      constructor
      · rintro (hfalse | ⟨j, hj, hdj, hmem⟩)
        · exact absurd hfalse (List.not_mem_nil d)
        · have : j = d := by omega
          subst this
          exact ⟨hj, hmem⟩
      · rintro ⟨hd, hmem⟩
        exact Or.inr ⟨d, hd, by omega, hmem⟩
    · rw [hshell, ACNC.mem_getD_buildRows _ _ 0 a d (by rw [List.length_replicate]; exact ha),
        getD_replicate_nil]
      constructor
      · rintro (hfalse | ⟨j, hj, hdj, hmem⟩)
        · exact absurd hfalse (List.not_mem_nil d)
        · have : j = d := by omega
          subst this
          exact ⟨hj, hmem⟩
      · rintro ⟨hd, hmem⟩
        exact Or.inr ⟨d, hd, by omega, hmem⟩
  · intro eng dfs dfs' raws h
    exact IAC.set_angles_success eng dfs dfs' raws h

/-- Witness for C10 at concrete compiled states: the two-atom engine with one
coordination definition, and the four-atom engine with one angle
definition. -/
theorem C10_membership_index_inverse_witness :
    stGood.asCoreDefIdxs.length = engA.numberOfAtoms
      ∧ IAC.membershipInverse angleDefs1
      ∧ ((angleDefs1.angles 3).isSome) := by
  have hpair : IAC.set_angles eng4 IAC.emptyDefs [⟨0, 1, 2, 3, -10, 10⟩]
      = (angleDefs1, none) := by
    apply Prod.ext
    · rfl
    · decide
  exact ⟨(C10_membership_index_inverse.1 engA ACNC.initialize_constraint_data stGood
      (some [goodCN]) rfl).1,
    (C10_membership_index_inverse.2 eng4 IAC.emptyDefs angleDefs1
      [⟨0, 1, 2, 3, -10, 10⟩] hpair).1,
    (C10_membership_index_inverse.2 eng4 IAC.emptyDefs angleDefs1
      [⟨0, 1, 2, 3, -10, 10⟩] hpair).2 3 (by decide)⟩

end Fullrmc
